import Mathlib

/-!
Verification of the moo fungible ledger and the nfmoo ownership registry
(ink! contracts, src/contracts/moo and src/contracts/nfmoo).

The state of each contract is embedded shallowly: every ink `Mapping<K, V>`
becomes a function `K → Option V` (absent entry means `none`, matching
`Mapping::get`), `AccountId` and `TokenId` become `Nat`, and the machine
integers `u128` and `u32` become `Nat` with explicit overflow checks at
`2 ^ 128` and `2 ^ 32` wherever the source uses `checked_add` or
`checked_sub`.  Each contract message becomes a function from the pre-state
and the call arguments (including the host-supplied caller) to a pair of an
optional error and a post-state; the post-state records every write the
source performed before returning, so a failing call that wrote first is
visible as a changed post-state.
-/

set_option maxHeartbeats 1000000

/-- Shallow embedding of `ink::storage::Mapping`: a partial map. -/
def Mapping (K V : Type) : Type := K → Option V

namespace Mapping

/-- `Mapping::default()` / empty map. -/
def empty {K V : Type} : Mapping K V := fun _ => none

/-- `Mapping::get`. -/
def get {K V : Type} (m : Mapping K V) (k : K) : Option V := m k

/-- `Mapping::insert`. -/
def insert {K V : Type} [DecidableEq K] (m : Mapping K V) (k : K) (v : V) :
    Mapping K V := fun q => if q = k then some v else m q

/-- `Mapping::remove`. -/
def remove {K V : Type} [DecidableEq K] (m : Mapping K V) (k : K) :
    Mapping K V := fun q => if q = k then none else m q

end Mapping

/-- `u128::checked_add`. -/
def checked_add128 (a b : Nat) : Option Nat :=
  if a + b < 2 ^ 128 then some (a + b) else none

/-- `u32::checked_add`. -/
def checked_add32 (a b : Nat) : Option Nat :=
  if a + b < 2 ^ 32 then some (a + b) else none

/-- `checked_sub` on an unsigned integer (any width). -/
def checked_sub (a b : Nat) : Option Nat :=
  if b ≤ a then some (a - b) else none

/-- `u32::saturating_add` (used by `tokens_of` for `start + limit`). -/
def saturating_add32 (a b : Nat) : Nat :=
  min (a + b) (2 ^ 32 - 1)

/-- Error enum of the moo contract (src/contracts/moo/model.rs). -/
inductive MooError : Type
  | AmountZero
  | InsufficientBalance
  | InsufficientAllowance
  | Overflow
  | SameAccount
  | Unauthorized
  | Paused
  | NotOwner
  | AllowanceRace
  deriving DecidableEq, Repr

/-- Storage struct of the moo fungible ledger (src/contracts/moo/model.rs). -/
structure Moo : Type where
  owner_acc : Nat
  paused_flag : Bool
  is_minter : Mapping Nat Bool
  total_supply : Nat
  balances : Mapping Nat Nat
  allowances : Mapping (Nat × Nat) Nat
  storage_ver_u32 : Nat

namespace Moo

/-- Constructor `Moo::new` with the given host caller. -/
def new (caller_acc : Nat) : Moo where
  owner_acc := caller_acc
  paused_flag := false
  is_minter := Mapping.empty
  total_supply := 0
  balances := Mapping.empty
  allowances := Mapping.empty
  storage_ver_u32 := 1

/-- `balance_of` (read API). -/
def balance_of (st : Moo) (owner_acc : Nat) : Nat :=
  (st.balances.get owner_acc).getD 0

/-- `allowance` (read API). -/
def allowance (st : Moo) (owner_acc spender_acc : Nat) : Nat :=
  (st.allowances.get (owner_acc, spender_acc)).getD 0

/-- `set_pause`: requires the contract owner. -/
def set_pause (st : Moo) (caller_acc : Nat) (paused_flag : Bool) :
    Option MooError × Moo :=
  if caller_acc ≠ st.owner_acc then (some .NotOwner, st)
  else (none, { st with paused_flag := paused_flag })

/-- `set_minter`: requires the contract owner. -/
def set_minter (st : Moo) (caller_acc minter_acc : Nat) (enabled_flag : Bool) :
    Option MooError × Moo :=
  if caller_acc ≠ st.owner_acc then (some .NotOwner, st)
  else (none, { st with is_minter := st.is_minter.insert minter_acc enabled_flag })

/-- Internal `mint_internal`: bumps total supply first, then the balance. -/
def mint_internal (st : Moo) (to_acc amount_val : Nat) : Option MooError × Moo :=
  match checked_add128 st.total_supply amount_val with
  | none => (some .Overflow, st)
  | some new_total =>
    let st1 : Moo := { st with total_supply := new_total }
    let to_bal := st1.balance_of to_acc
    match checked_add128 to_bal amount_val with
    | none => (some .Overflow, st1)
    | some new_to => (none, { st1 with balances := st1.balances.insert to_acc new_to })

/-- `mint`: pause gate, zero-amount check, minter check, then `mint_internal`. -/
def mint (st : Moo) (caller_acc amount_val : Nat) : Option MooError × Moo :=
  if st.paused_flag then (some .Paused, st)
  else if amount_val = 0 then (some .AmountZero, st)
  else if ¬ (st.is_minter.get caller_acc).getD false then (some .Unauthorized, st)
  else mint_internal st caller_acc amount_val

/-- `burn`: caller burns from its own balance. -/
def burn (st : Moo) (caller_acc amount_val : Nat) : Option MooError × Moo :=
  if st.paused_flag then (some .Paused, st)
  else if amount_val = 0 then (some .AmountZero, st)
  else
    let from_bal := st.balance_of caller_acc
    if from_bal < amount_val then (some .InsufficientBalance, st)
    else
      match checked_sub from_bal amount_val with
      | none => (some .Overflow, st)
      | some new_from_bal =>
        let st1 : Moo := { st with balances := st.balances.insert caller_acc new_from_bal }
        match checked_sub st1.total_supply amount_val with
        | none => (some .Overflow, st1)
        | some new_total => (none, { st1 with total_supply := new_total })

/-- Internal `move_balance`; shared by `transfer` and `transfer_from`. -/
def move_balance (st : Moo) (from_acc to_acc amount_val : Nat) :
    Option MooError × Moo :=
  let from_bal := st.balance_of from_acc
  if from_bal < amount_val then (some .InsufficientBalance, st)
  else
    match checked_sub from_bal amount_val with
    | none => (some .Overflow, st)
    | some new_from =>
      let st1 : Moo := { st with balances := st.balances.insert from_acc new_from }
      let to_bal := st1.balance_of to_acc
      match checked_add128 to_bal amount_val with
      | none => (some .Overflow, st1)
      | some new_to => (none, { st1 with balances := st1.balances.insert to_acc new_to })

/-- `transfer`. -/
def transfer (st : Moo) (caller_acc to_acc amount_val : Nat) :
    Option MooError × Moo :=
  if st.paused_flag then (some .Paused, st)
  else if amount_val = 0 then (some .AmountZero, st)
  else if caller_acc = to_acc then (some .SameAccount, st)
  else move_balance st caller_acc to_acc amount_val

/-- `approve` with the safe-approve policy. -/
def approve (st : Moo) (caller_acc spender_acc amount_val : Nat) :
    Option MooError × Moo :=
  if st.paused_flag then (some .Paused, st)
  else
    let current_val := st.allowance caller_acc spender_acc
    if current_val ≠ 0 ∧ amount_val ≠ 0 then (some .AllowanceRace, st)
    else (none, { st with allowances := st.allowances.insert (caller_acc, spender_acc) amount_val })

/-- `increase_allowance`. -/
def increase_allowance (st : Moo) (caller_acc spender_acc add_val : Nat) :
    Option MooError × Moo :=
  if st.paused_flag then (some .Paused, st)
  else
    let current_val := st.allowance caller_acc spender_acc
    match checked_add128 current_val add_val with
    | none => (some .Overflow, st)
    | some new_val =>
      (none, { st with allowances := st.allowances.insert (caller_acc, spender_acc) new_val })

/-- `decrease_allowance` (saturating subtraction, never fails past the gate). -/
def decrease_allowance (st : Moo) (caller_acc spender_acc sub_val : Nat) :
    Option MooError × Moo :=
  if st.paused_flag then (some .Paused, st)
  else
    let current_val := st.allowance caller_acc spender_acc
    let new_val := current_val - sub_val
    (none, { st with allowances := st.allowances.insert (caller_acc, spender_acc) new_val })

/-- `transfer_from`: balance precheck, allowance check, balance move, then
the allowance decrement (plain subtraction) persisted last. -/
def transfer_from (st : Moo) (caller_acc from_acc to_acc amount_val : Nat) :
    Option MooError × Moo :=
  if st.paused_flag then (some .Paused, st)
  else if amount_val = 0 then (some .AmountZero, st)
  else if from_acc = to_acc then (some .SameAccount, st)
  else
    let from_bal := st.balance_of from_acc
    if from_bal < amount_val then (some .InsufficientBalance, st)
    else
      let current_allow := st.allowance from_acc caller_acc
      if current_allow < amount_val then (some .InsufficientAllowance, st)
      else
        let to_bal := st.balance_of to_acc
        match checked_sub from_bal amount_val with
        | none => (some .Overflow, st)
        | some new_from =>
          match checked_add128 to_bal amount_val with
          | none => (some .Overflow, st)
          | some new_to =>
            let st1 : Moo :=
              { st with balances := (st.balances.insert from_acc new_from).insert to_acc new_to }
            let new_allow := current_allow - amount_val
            (none, { st1 with allowances := st1.allowances.insert (from_acc, caller_acc) new_allow })

end Moo

/-- One external message call to the moo ledger, with the host caller. -/
inductive MooCall : Type
  | set_pause (caller_acc : Nat) (paused_flag : Bool)
  | set_minter (caller_acc minter_acc : Nat) (enabled_flag : Bool)
  | mint (caller_acc amount_val : Nat)
  | burn (caller_acc amount_val : Nat)
  | transfer (caller_acc to_acc amount_val : Nat)
  | approve (caller_acc spender_acc amount_val : Nat)
  | increase_allowance (caller_acc spender_acc add_val : Nat)
  | decrease_allowance (caller_acc spender_acc sub_val : Nat)
  | transfer_from (caller_acc from_acc to_acc amount_val : Nat)

/-- Dispatch one moo call. -/
def Moo.exec (st : Moo) : MooCall → Option MooError × Moo
  | .set_pause c f => st.set_pause c f
  | .set_minter c m f => st.set_minter c m f
  | .mint c a => st.mint c a
  | .burn c a => st.burn c a
  | .transfer c t a => st.transfer c t a
  | .approve c s a => st.approve c s a
  | .increase_allowance c s a => st.increase_allowance c s a
  | .decrease_allowance c s a => st.decrease_allowance c s a
  | .transfer_from c f t a => st.transfer_from c f t a

/-- Reachable ledger states: the constructor state, closed under successful
calls (the host commits a call's writes only when it returns `Ok`). -/
inductive MooReachable : Moo → Prop
  | init (deployer : Nat) : MooReachable (Moo.new deployer)
  | step (st : Moo) (c : MooCall) : MooReachable st →
      (Moo.exec st c).1 = none → MooReachable (Moo.exec st c).2

/-- Error enum of the nfmoo contract (src/contracts/nfmoo/model.rs). -/
inductive NFError : Type
  | AmountZero
  | Overflow
  | SameAccount
  | NotOwner
  | NotApproved
  | TokenMissing
  | Unauthorized
  | Paused
  deriving DecidableEq, Repr

/-- Storage struct of the nfmoo ownership registry (src/contracts/nfmoo/model.rs). -/
structure NFMoo : Type where
  owner_acc : Nat
  paused_flag : Bool
  is_minter : Mapping Nat Bool
  max_supply_opt : Option Nat
  supply_cnt : Nat
  next_id : Nat
  owner_by_id : Mapping Nat Nat
  owned_count : Mapping Nat Nat
  tokens_by_owner : Mapping (Nat × Nat) Nat
  owned_index : Mapping Nat Nat
  token_approval : Mapping Nat Nat
  operator_approval : Mapping (Nat × Nat) Bool
  storage_ver_u32 : Nat

namespace NFMoo

/-- Constructor `NFMoo::new` with the given host caller. -/
def new (caller_acc : Nat) (max_supply_opt : Option Nat) : NFMoo where
  owner_acc := caller_acc
  paused_flag := false
  is_minter := Mapping.empty
  max_supply_opt := max_supply_opt
  supply_cnt := 0
  next_id := 0
  owner_by_id := Mapping.empty
  owned_count := Mapping.empty
  tokens_by_owner := Mapping.empty
  owned_index := Mapping.empty
  token_approval := Mapping.empty
  operator_approval := Mapping.empty
  storage_ver_u32 := 1

/-- `owner_of` (pure read). -/
def owner_of (st : NFMoo) (token_id : Nat) : Option Nat :=
  st.owner_by_id.get token_id

/-- `balance_of` (pure read). -/
def balance_of (st : NFMoo) (owner_acc : Nat) : Nat :=
  (st.owned_count.get owner_acc).getD 0

/-- `get_approved` (pure read). -/
def get_approved (st : NFMoo) (token_id : Nat) : Option Nat :=
  st.token_approval.get token_id

/-- `is_approved_for_all` (pure read). -/
def is_approved_for_all (st : NFMoo) (owner_acc operator_acc : Nat) : Bool :=
  (st.operator_approval.get (owner_acc, operator_acc)).getD false

/-- `tokens_of`: paginated slice of the dense per-owner index. -/
def tokens_of (st : NFMoo) (owner_acc start_index limit_cnt : Nat) : List Nat :=
  let count_val := st.balance_of owner_acc
  if start_index ≥ count_val ∨ limit_cnt = 0 then []
  else
    let end_index := min count_val (saturating_add32 start_index limit_cnt)
    (List.range' start_index (end_index - start_index)).filterMap
      (fun index_val => st.tokens_by_owner.get (owner_acc, index_val))

/-- Helper `is_approved_or_owner`. -/
def is_approved_or_owner (st : NFMoo) (caller_acc token_id : Nat) :
    Option NFError :=
  match st.owner_by_id.get token_id with
  | none => some .TokenMissing
  | some owner_acc =>
    if caller_acc = owner_acc then none
    else if st.token_approval.get token_id = some caller_acc then none
    else if (st.operator_approval.get (owner_acc, caller_acc)).getD false then none
    else some .NotApproved

/-- `set_pause`: requires the contract owner. -/
def set_pause (st : NFMoo) (caller_acc : Nat) (paused_flag : Bool) :
    Option NFError × NFMoo :=
  if caller_acc ≠ st.owner_acc then (some .NotOwner, st)
  else (none, { st with paused_flag := paused_flag })

/-- `set_minter`: requires the contract owner. -/
def set_minter (st : NFMoo) (caller_acc minter_acc : Nat) (enabled_flag : Bool) :
    Option NFError × NFMoo :=
  if caller_acc ≠ st.owner_acc then (some .NotOwner, st)
  else (none, { st with is_minter := st.is_minter.insert minter_acc enabled_flag })

/-- Internal `add_token_to_owner`: append at slot `count`, set the reverse
index, then bump the count with a `u32` checked add. -/
def add_token_to_owner (st : NFMoo) (to_acc token_id : Nat) :
    Option NFError × NFMoo :=
  let count_val := st.balance_of to_acc
  let st1 : NFMoo :=
    { st with
      tokens_by_owner := st.tokens_by_owner.insert (to_acc, count_val) token_id
      owned_index := st.owned_index.insert token_id count_val }
  match checked_add32 count_val 1 with
  | none => (some .Overflow, st1)
  | some new_count => (none, { st1 with owned_count := st1.owned_count.insert to_acc new_count })

/-- Internal `remove_token_from_owner`: swap-with-last removal. -/
def remove_token_from_owner (st : NFMoo) (from_acc token_id : Nat) :
    Option NFError × NFMoo :=
  let count_val := st.balance_of from_acc
  if count_val = 0 then (some .TokenMissing, st)
  else
    match st.owned_index.get token_id with
    | none => (some .TokenMissing, st)
    | some remove_index =>
      let last_index := count_val - 1
      let st1 : NFMoo :=
        match st.tokens_by_owner.get (from_acc, last_index) with
        | some last_token_id =>
          let stm : NFMoo :=
            if last_index ≠ remove_index then
              { st with
                tokens_by_owner := st.tokens_by_owner.insert (from_acc, remove_index) last_token_id
                owned_index := st.owned_index.insert last_token_id remove_index }
            else st
          { stm with tokens_by_owner := stm.tokens_by_owner.remove (from_acc, last_index) }
        | none => st
      let st2 : NFMoo := { st1 with owned_index := st1.owned_index.remove token_id }
      (none, { st2 with owned_count := st2.owned_count.insert from_acc last_index })

/-- Internal `clear_token_approval`. -/
def clear_token_approval (st : NFMoo) (token_id : Nat) : NFMoo :=
  { st with token_approval := st.token_approval.remove token_id }

/-- Body of one `mint_n` loop iteration after the max-supply gate: assign
the next id, record the owner, append to the dense index, bump the supply.
Early `?`-returns surface as errors with the writes so far. -/
def mint_body (st : NFMoo) (caller_acc : Nat) : Option NFError × NFMoo :=
  let token_id := st.next_id
  match checked_add128 st.next_id 1 with
  | none => (some .Overflow, st)
  | some new_next =>
    let st1 : NFMoo :=
      { st with
        next_id := new_next
        owner_by_id := st.owner_by_id.insert token_id caller_acc }
    match add_token_to_owner st1 caller_acc token_id with
    | (some e, st2) => (some e, st2)
    | (none, st2) =>
      match checked_add128 st2.supply_cnt 1 with
      | none => (some .Overflow, st2)
      | some new_supply => (none, { st2 with supply_cnt := new_supply })

/-- One full `mint_n` loop iteration: max-supply gate (the Rust
`if let Some(max_supply_val) = self.max_supply_opt` check), then the body. -/
def mint_one (st : NFMoo) (caller_acc : Nat) : Option NFError × NFMoo :=
  match st.max_supply_opt with
  | some max_supply_val =>
    if st.supply_cnt ≥ max_supply_val then (some .Overflow, st)
    else mint_body st caller_acc
  | none => mint_body st caller_acc

/-- The `for _ in 0..amount_cnt` loop of `mint_n` with early return. -/
def mint_loop (st : NFMoo) (caller_acc : Nat) : Nat → Option NFError × NFMoo
  | 0 => (none, st)
  | Nat.succ n =>
    match mint_one st caller_acc with
    | (some e, st2) => (some e, st2)
    | (none, st2) => mint_loop st2 caller_acc n

/-- `mint_n`: pause gate, zero check, minter check, per-call ceiling of 200,
then the minting loop. -/
def mint_n (st : NFMoo) (caller_acc amount_cnt : Nat) : Option NFError × NFMoo :=
  if st.paused_flag then (some .Paused, st)
  else if amount_cnt = 0 then (some .AmountZero, st)
  else if ¬ (st.is_minter.get caller_acc).getD false then (some .Unauthorized, st)
  else if amount_cnt > 200 then (some .Overflow, st)
  else mint_loop st caller_acc amount_cnt

/-- `transfer`: owner-or-approved caller moves a token to a new owner. -/
def transfer (st : NFMoo) (caller_acc to_acc token_id : Nat) :
    Option NFError × NFMoo :=
  if st.paused_flag then (some .Paused, st)
  else
    match is_approved_or_owner st caller_acc token_id with
    | some e => (some e, st)
    | none =>
      match st.owner_by_id.get token_id with
      | none => (some .TokenMissing, st)
      | some from_acc =>
        if from_acc = to_acc then (some .SameAccount, st)
        else
          let st1 := clear_token_approval st token_id
          match remove_token_from_owner st1 from_acc token_id with
          | (some e, st2) => (some e, st2)
          | (none, st2) =>
            let st3 : NFMoo := { st2 with owner_by_id := st2.owner_by_id.insert token_id to_acc }
            match add_token_to_owner st3 to_acc token_id with
            | (some e, st4) => (some e, st4)
            | (none, st4) => (none, st4)

/-- `burn`: only the current owner may burn. -/
def burn (st : NFMoo) (caller_acc token_id : Nat) : Option NFError × NFMoo :=
  if st.paused_flag then (some .Paused, st)
  else
    match st.owner_by_id.get token_id with
    | none => (some .TokenMissing, st)
    | some from_acc =>
      if from_acc ≠ caller_acc then (some .NotOwner, st)
      else
        let st1 := clear_token_approval st token_id
        match remove_token_from_owner st1 from_acc token_id with
        | (some e, st2) => (some e, st2)
        | (none, st2) =>
          let st3 : NFMoo := { st2 with owner_by_id := st2.owner_by_id.remove token_id }
          match checked_sub st3.supply_cnt 1 with
          | none => (some .Overflow, st3)
          | some new_supply => (none, { st3 with supply_cnt := new_supply })

/-- `approve`: single-token approval, owner only. -/
def approve (st : NFMoo) (caller_acc approved_acc token_id : Nat) :
    Option NFError × NFMoo :=
  if st.paused_flag then (some .Paused, st)
  else
    match st.owner_by_id.get token_id with
    | none => (some .TokenMissing, st)
    | some owner_acc =>
      if owner_acc ≠ caller_acc then (some .NotOwner, st)
      else (none, { st with token_approval := st.token_approval.insert token_id approved_acc })

/-- `set_approval_for_all`: blanket operator approval. -/
def set_approval_for_all (st : NFMoo) (caller_acc operator_acc : Nat)
    (approved_flag : Bool) : Option NFError × NFMoo :=
  if st.paused_flag then (some .Paused, st)
  else if caller_acc = operator_acc then (some .SameAccount, st)
  else
    (none, { st with
      operator_approval := st.operator_approval.insert (caller_acc, operator_acc) approved_flag })

end NFMoo

/-- One external message call to the nfmoo registry, with the host caller. -/
inductive NFCall : Type
  | set_pause (caller_acc : Nat) (paused_flag : Bool)
  | set_minter (caller_acc minter_acc : Nat) (enabled_flag : Bool)
  | mint_n (caller_acc amount_cnt : Nat)
  | transfer (caller_acc to_acc token_id : Nat)
  | burn (caller_acc token_id : Nat)
  | approve (caller_acc approved_acc token_id : Nat)
  | set_approval_for_all (caller_acc operator_acc : Nat) (approved_flag : Bool)

/-- Dispatch one nfmoo call. -/
def NFMoo.exec (st : NFMoo) : NFCall → Option NFError × NFMoo
  | .set_pause c f => st.set_pause c f
  | .set_minter c m f => st.set_minter c m f
  | .mint_n c n => st.mint_n c n
  | .transfer c t i => st.transfer c t i
  | .burn c i => st.burn c i
  | .approve c a i => st.approve c a i
  | .set_approval_for_all c o f => st.set_approval_for_all c o f

/-- Reachable registry states: any constructor state, closed under
successful calls. -/
inductive NFReachable : NFMoo → Prop
  | init (deployer : Nat) (max_supply_opt : Option Nat) :
      NFReachable (NFMoo.new deployer max_supply_opt)
  | step (st : NFMoo) (c : NFCall) : NFReachable st →
      (NFMoo.exec st c).1 = none → NFReachable (NFMoo.exec st c).2

/-- Ledger coherence: the total supply is below `2 ^ 128` and equals the sum
of the balances over some finite support outside of which every balance is
zero. -/
def MooInv (st : Moo) : Prop :=
  st.total_supply < 2 ^ 128 ∧
  ∃ supp : Finset Nat, (∀ a, a ∉ supp → st.balance_of a = 0) ∧
    st.total_supply = ∑ x ∈ supp, st.balance_of x

/-- Count read: `owned_count.get(o).unwrap_or(0)`. -/
def cntOf (cntm : Mapping Nat Nat) (o : Nat) : Nat := (cntm.get o).getD 0

/-- Coherence of the four enumeration maps of the registry: for every owner
`o`, slots `0..count o` of `tokens_by_owner` hold exactly the tokens whose
owner (per `own`) is `o`, with the reverse index `owned_index` mapping each
such token back to its slot; there are no entries at or beyond the count and
no reverse entry for a non-existent token. -/
def IdxOk (own cntm : Mapping Nat Nat) (tbo : Mapping (Nat × Nat) Nat)
    (oidx : Mapping Nat Nat) : Prop :=
  (∀ o i, i < cntOf cntm o →
      ∃ u, tbo.get (o, i) = some u ∧ own.get u = some o ∧ oidx.get u = some i) ∧
  (∀ o i, cntOf cntm o ≤ i → tbo.get (o, i) = none) ∧
  (∀ u o, own.get u = some o →
      ∃ i, i < cntOf cntm o ∧ oidx.get u = some i ∧ tbo.get (o, i) = some u) ∧
  (∀ u, own.get u = none → oidx.get u = none)

/-- Registry coherence: the four enumeration maps agree, every live token id
is below `next_id`, and the supply counter counts the live tokens. -/
def NFInv (st : NFMoo) : Prop :=
  IdxOk st.owner_by_id st.owned_count st.tokens_by_owner st.owned_index ∧
  (∀ t, st.owner_by_id.get t ≠ none → t < st.next_id) ∧
  ∃ live : Finset Nat, (∀ t, t ∈ live ↔ (st.owner_by_id.get t).isSome) ∧
    st.supply_cnt = live.card

/-- Minter 5 enabled on a fresh ledger. -/
def mooS1 : Moo := (Moo.exec (Moo.new 0) (MooCall.set_minter 0 5 true)).2

/-- Minter 5 has minted 100 units to itself. -/
def mooS2 : Moo := (Moo.exec mooS1 (MooCall.mint 5 100)).2

/-- Owner 5 has granted spender 7 an allowance of 30. -/
def mooS3 : Moo := (Moo.exec mooS2 (MooCall.approve 5 7 30)).2

/-- A fresh ledger, paused by its owner. -/
def mooPaused : Moo := (Moo.exec (Moo.new 0) (MooCall.set_pause 0 true)).2

/-- Minter 5 enabled on a fresh unlimited registry. -/
def nfS1 : NFMoo := (NFMoo.exec (NFMoo.new 0 none) (NFCall.set_minter 0 5 true)).2

/-- Minter 5 has minted tokens 0, 1, 2 to itself. -/
def nfS2 : NFMoo := (NFMoo.exec nfS1 (NFCall.mint_n 5 3)).2

/-- Token 1 transferred from 5 to 9 (swap-remove on the sender's index). -/
def nfS3 : NFMoo := (NFMoo.exec nfS2 (NFCall.transfer 5 9 1)).2

/-- A fresh registry, paused by its owner. -/
def nfPaused : NFMoo := (NFMoo.exec (NFMoo.new 0 none) (NFCall.set_pause 0 true)).2

/-- Registry with max supply 1 and minter 5 enabled. -/
def nfCap : NFMoo :=
  (NFMoo.exec (NFMoo.new 0 (some 1)) (NFCall.set_minter 0 5 true)).2

/-- Registry with max supply 2 and account 5 enabled as minter. -/
def nfM1 : NFMoo :=
  (NFMoo.exec (NFMoo.new 0 (some 2)) (NFCall.set_minter 0 5 true)).2

/-- Minter 5 has minted the two permitted tokens (ids 0 and 1). -/
def nfM2 : NFMoo := (NFMoo.exec nfM1 (NFCall.mint_n 5 2)).2

/-! ## Basic laws of the embedded primitives -/

namespace Mapping

@[simp] theorem get_empty {K V : Type} (k : K) :
    (empty : Mapping K V).get k = none := rfl

@[simp] theorem get_insert {K V : Type} [DecidableEq K]
    (m : Mapping K V) (k q : K) (v : V) :
    (m.insert k v).get q = if q = k then some v else m.get q := rfl

@[simp] theorem get_remove {K V : Type} [DecidableEq K]
    (m : Mapping K V) (k q : K) :
    (m.remove k).get q = if q = k then none else m.get q := rfl

theorem get_insert_self {K V : Type} [DecidableEq K]
    (m : Mapping K V) (k : K) (v : V) : (m.insert k v).get k = some v := by
  simp

theorem get_insert_ne {K V : Type} [DecidableEq K]
    (m : Mapping K V) (k q : K) (v : V) (h : q ≠ k) :
    (m.insert k v).get q = m.get q := by
  simp [h]

end Mapping

theorem checked_add128_none {a b : Nat} (h : checked_add128 a b = none) :
    ¬ a + b < 2 ^ 128 := by
  unfold checked_add128 at h
  split at h
  · cases h
  · assumption

theorem checked_add128_some {a b c : Nat} (h : checked_add128 a b = some c) :
    c = a + b ∧ a + b < 2 ^ 128 := by
  unfold checked_add128 at h
  split at h
  · cases h; exact ⟨rfl, by assumption⟩
  · cases h

theorem checked_add32_none {a b : Nat} (h : checked_add32 a b = none) :
    ¬ a + b < 2 ^ 32 := by
  unfold checked_add32 at h
  split at h
  · cases h
  · assumption

theorem checked_add32_some {a b c : Nat} (h : checked_add32 a b = some c) :
    c = a + b ∧ a + b < 2 ^ 32 := by
  unfold checked_add32 at h
  split at h
  · cases h; exact ⟨rfl, by assumption⟩
  · cases h

theorem checked_sub_none {a b : Nat} (h : checked_sub a b = none) : ¬ b ≤ a := by
  unfold checked_sub at h
  split at h
  · cases h
  · assumption

theorem checked_sub_some {a b c : Nat} (h : checked_sub a b = some c) :
    c = a - b ∧ b ≤ a := by
  unfold checked_sub at h
  split at h
  · cases h; exact ⟨rfl, by assumption⟩
  · cases h

/-! ## Ledger invariant: total supply is the sum of all balances -/

theorem balance_of_insert (st : Moo) (a v x : Nat) :
    Moo.balance_of { st with balances := st.balances.insert a v } x =
      if x = a then v else st.balance_of x := by
  simp only [Moo.balance_of, Mapping.get, Mapping.insert]
  split <;> rfl

theorem sum_insert_zero_outside (supp : Finset Nat) (f : Nat → Nat)
    (hz : ∀ x, x ∉ supp → f x = 0) (a : Nat) :
    ∑ x ∈ insert a supp, f x = ∑ x ∈ supp, f x := by
  by_cases ha : a ∈ supp
  · rw [Finset.insert_eq_self.2 ha]
  · rw [Finset.sum_insert ha, hz a ha, Nat.zero_add]

theorem sum_update_mem (supp : Finset Nat) (f : Nat → Nat) (a v : Nat)
    (ha : a ∈ supp) :
    (∑ x ∈ supp, Function.update f a v x) + f a = (∑ x ∈ supp, f x) + v := by
  rw [Finset.sum_update_of_mem ha]
  have h1 := Finset.sum_eq_sum_diff_singleton_add ha f
  omega

theorem MooInv.balance_le_total {st : Moo} (h : MooInv st) (a : Nat) :
    st.balance_of a ≤ st.total_supply := by
  obtain ⟨-, supp, hz, hsum⟩ := h
  by_cases ha : a ∈ supp
  · rw [hsum]
    exact Finset.single_le_sum (fun i _ => Nat.zero_le _) ha
  · rw [hz a ha]
    exact Nat.zero_le _

theorem MooInv.pair_le_total {st : Moo} (h : MooInv st) (a b : Nat)
    (hab : a ≠ b) : st.balance_of a + st.balance_of b ≤ st.total_supply := by
  obtain ⟨-, supp, hz, hsum⟩ := h
  have hsub : ({a, b} : Finset Nat) ⊆ insert a (insert b supp) := by
    intro x hx
    rcases Finset.mem_insert.1 hx with hx | hx
    · exact Finset.mem_insert.2 (Or.inl hx)
    · exact Finset.mem_insert.2 (Or.inr (Finset.mem_insert.2
        (Or.inl (Finset.mem_singleton.1 hx))))
  have h1 : ∑ x ∈ ({a, b} : Finset Nat), st.balance_of x ≤
      ∑ x ∈ insert a (insert b supp), st.balance_of x :=
    Finset.sum_le_sum_of_subset hsub
  rw [Finset.sum_pair hab] at h1
  rw [sum_insert_zero_outside _ _ (fun x hx => hz x (by
        intro hmem; exact hx (Finset.mem_insert.2 (Or.inr hmem)))) a,
      sum_insert_zero_outside _ _ hz b, ← hsum] at h1
  exact h1

/-- Updating one balance to `v` and the total supply to `total` preserves the
support-sum shape, provided `total + old = supply + v`.  Stated additively to
stay in `Nat`. -/
theorem mooInv_update (st : Moo) (h : MooInv st) (a v total : Nat)
    (htot : total + st.balance_of a = st.total_supply + v)
    (hbound : total < 2 ^ 128) :
    MooInv
      { st with
        total_supply := total
        balances := st.balances.insert a v } := by
  obtain ⟨-, supp, hz, hsum⟩ := h
  have hupd : ∀ x, Moo.balance_of
      { st with
        total_supply := total
        balances := st.balances.insert a v } x =
      Function.update st.balance_of a v x := by
    intro x
    rw [Function.update_apply]
    show ((st.balances.insert a v).get x).getD 0 = _
    rw [Mapping.get_insert]
    by_cases hxa : x = a
    · rw [if_pos hxa, if_pos hxa]; rfl
    · rw [if_neg hxa, if_neg hxa]; rfl
  refine ⟨hbound, insert a supp, ?_, ?_⟩
  · intro x hx
    have hxa : x ≠ a := fun hxa => hx (hxa ▸ Finset.mem_insert_self a supp)
    rw [hupd x, Function.update_apply, if_neg hxa]
    exact hz x (fun hmem => hx (Finset.mem_insert.2 (Or.inr hmem)))
  · have ha : a ∈ insert a supp := Finset.mem_insert_self a supp
    have h2 := sum_update_mem (insert a supp) st.balance_of a v ha
    rw [sum_insert_zero_outside supp st.balance_of hz a, ← hsum] at h2
    have h3 : (∑ x ∈ insert a supp, Moo.balance_of
        { st with
          total_supply := total
          balances := st.balances.insert a v } x) =
        ∑ x ∈ insert a supp, Function.update st.balance_of a v x :=
      Finset.sum_congr rfl (fun x _ => hupd x)
    rw [h3]
    show total = ∑ x ∈ insert a supp, Function.update st.balance_of a v x
    omega

/-- Two-account version: move `δ` from `a` to `b` (distinct), total supply
unchanged. -/
theorem mooInv_move (st : Moo) (h : MooInv st) (a b δ : Nat) (hab : a ≠ b)
    (hδ : δ ≤ st.balance_of a) :
    MooInv
      { st with
        balances := (st.balances.insert a (st.balance_of a - δ)).insert b
          (st.balance_of b + δ) } := by
  obtain ⟨hbound, supp, hz, hsum⟩ := h
  have hupd : ∀ x, Moo.balance_of
      { st with
        balances := (st.balances.insert a (st.balance_of a - δ)).insert b
          (st.balance_of b + δ) } x =
      Function.update (Function.update st.balance_of a (st.balance_of a - δ))
        b (st.balance_of b + δ) x := by
    intro x
    rw [Function.update_apply, Function.update_apply]
    show (((st.balances.insert a _).insert b _).get x).getD 0 = _
    rw [Mapping.get_insert, Mapping.get_insert]
    by_cases hxb : x = b
    · rw [if_pos hxb, if_pos hxb]; rfl
    · rw [if_neg hxb, if_neg hxb]
      by_cases hxa : x = a
      · rw [if_pos hxa, if_pos hxa]; rfl
      · rw [if_neg hxa, if_neg hxa]; rfl
  refine ⟨hbound, insert a (insert b supp), ?_, ?_⟩
  · intro x hx
    have hxa : x ≠ a := fun hh => hx (hh ▸ Finset.mem_insert_self _ _)
    have hxb : x ≠ b := fun hh => hx (Finset.mem_insert.2
      (Or.inr (hh ▸ Finset.mem_insert_self _ _)))
    rw [hupd x, Function.update_apply, if_neg hxb, Function.update_apply,
      if_neg hxa]
    exact hz x (fun hmem => hx (Finset.mem_insert.2
      (Or.inr (Finset.mem_insert.2 (Or.inr hmem)))))
  · set S : Finset Nat := insert a (insert b supp) with hS
    have ha : a ∈ S := Finset.mem_insert_self _ _
    have hb : b ∈ S := Finset.mem_insert.2 (Or.inr (Finset.mem_insert_self _ _))
    set f1 : Nat → Nat := Function.update st.balance_of a (st.balance_of a - δ)
      with hf1
    have h1 := sum_update_mem S st.balance_of a (st.balance_of a - δ) ha
    rw [← hf1] at h1
    have h2 := sum_update_mem S f1 b (f1 b + δ) hb
    have hf1b : f1 b = st.balance_of b := by
      rw [hf1, Function.update_apply, if_neg (Ne.symm hab)]
    have hSsum : ∑ x ∈ S, st.balance_of x = st.total_supply := by
      rw [hS, sum_insert_zero_outside _ _ (fun x hx => hz x (by
          intro hmem; exact hx (Finset.mem_insert.2 (Or.inr hmem)))) a,
        sum_insert_zero_outside _ _ hz b, ← hsum]
    rw [hSsum] at h1
    rw [hf1b] at h2
    have h3 : (∑ x ∈ S, Moo.balance_of
        { st with
          balances := (st.balances.insert a (st.balance_of a - δ)).insert b
            (st.balance_of b + δ) } x) =
        ∑ x ∈ S, Function.update f1 b (st.balance_of b + δ) x :=
      Finset.sum_congr rfl (fun x _ => hupd x)
    rw [h3]
    show st.total_supply = ∑ x ∈ S, Function.update f1 b (st.balance_of b + δ) x
    omega

/-- Case analysis of one moo call from a coherent state: either the call
left the state untouched, or it succeeded and coherence is preserved.  In
particular a failing call never changes the state, and a successful call
keeps the invariant. -/
theorem moo_exec_cases (st : Moo) (c : MooCall) (h : MooInv st) :
    (Moo.exec st c).2 = st ∨ ((Moo.exec st c).1 = none ∧ MooInv (Moo.exec st c).2) := by
  cases c with
  | set_pause caller flag =>
    simp only [Moo.exec, Moo.set_pause]
    split
    · exact Or.inl rfl
    · exact Or.inr ⟨rfl, h⟩
  | set_minter caller m flag =>
    simp only [Moo.exec, Moo.set_minter]
    split
    · exact Or.inl rfl
    · exact Or.inr ⟨rfl, h⟩
  | approve caller s a =>
    simp only [Moo.exec, Moo.approve]
    split
    · exact Or.inl rfl
    · split
      · exact Or.inl rfl
      · exact Or.inr ⟨rfl, h⟩
  | increase_allowance caller s a =>
    simp only [Moo.exec, Moo.increase_allowance]
    split
    · exact Or.inl rfl
    · split
      · exact Or.inl rfl
      · exact Or.inr ⟨rfl, h⟩
  | decrease_allowance caller s a =>
    simp only [Moo.exec, Moo.decrease_allowance]
    split
    · exact Or.inl rfl
    · exact Or.inr ⟨rfl, h⟩
  | mint caller a =>
    simp only [Moo.exec, Moo.mint, Moo.mint_internal]
    split
    · exact Or.inl rfl
    · split
      · exact Or.inl rfl
      · split
        · exact Or.inl rfl
        · split
          next heq => exact Or.inl rfl
          next new_total heq =>
            split
            next heq2 =>
              exfalso
              obtain ⟨hnt, hlt⟩ := checked_add128_some heq
              have hble := h.balance_le_total caller
              have hno := checked_add128_none heq2
              apply hno
              show st.balance_of caller + a < 2 ^ 128
              omega
            next new_to heq2 =>
              refine Or.inr ⟨rfl, ?_⟩
              obtain ⟨hnt, hlt⟩ := checked_add128_some heq
              obtain ⟨hnto, hlto⟩ := checked_add128_some heq2
              subst hnt
              have hnto2 : new_to = st.balance_of caller + a := hnto
              subst hnto2
              exact mooInv_update st h caller (st.balance_of caller + a)
                (st.total_supply + a) (by omega) hlt
  | burn caller a =>
    simp only [Moo.exec, Moo.burn]
    split
    · exact Or.inl rfl
    · split
      · exact Or.inl rfl
      · split
        · exact Or.inl rfl
        · next hnlt =>
          split
          next heq => exact Or.inl rfl
          next new_from heq =>
            split
            next heq2 =>
              exfalso
              obtain ⟨hnf, hle⟩ := checked_sub_some heq
              have hble := h.balance_le_total caller
              have hno := checked_sub_none heq2
              apply hno
              show a ≤ st.total_supply
              omega
            next new_total heq2 =>
              refine Or.inr ⟨rfl, ?_⟩
              obtain ⟨hnf, hle⟩ := checked_sub_some heq
              obtain ⟨hnt, hle2⟩ := checked_sub_some heq2
              subst hnf
              have hnt2 : new_total = st.total_supply - a := hnt
              subst hnt2
              exact mooInv_update st h caller (st.balance_of caller - a)
                (st.total_supply - a)
                (by have := h.balance_le_total caller; omega)
                (by have := h.1; omega)
  | transfer caller t a =>
    simp only [Moo.exec, Moo.transfer, Moo.move_balance]
    split
    · exact Or.inl rfl
    · split
      · exact Or.inl rfl
      · split
        · exact Or.inl rfl
        · next hne =>
          split
          · exact Or.inl rfl
          · next hnlt =>
            split
            next heq => exact Or.inl rfl
            next new_from heq =>
              rw [balance_of_insert] at *
              split
              next heq2 =>
                exfalso
                rw [if_neg (fun hh : t = caller => hne hh.symm)] at heq2
                obtain ⟨hnf, hle⟩ := checked_sub_some heq
                have hpair := h.pair_le_total caller t hne
                have hno := checked_add128_none heq2
                have hb := h.1
                omega
              next new_to heq2 =>
                refine Or.inr ⟨rfl, ?_⟩
                rw [if_neg (fun hh : t = caller => hne hh.symm)] at heq2
                obtain ⟨hnf, hle⟩ := checked_sub_some heq
                obtain ⟨hnt, hlt⟩ := checked_add128_some heq2
                subst hnf hnt
                exact mooInv_move st h caller t a hne hle
  | transfer_from caller fr t a =>
    simp only [Moo.exec, Moo.transfer_from]
    split
    · exact Or.inl rfl
    · split
      · exact Or.inl rfl
      · split
        · exact Or.inl rfl
        · next hne =>
          split
          · exact Or.inl rfl
          · next hnlt =>
            split
            · exact Or.inl rfl
            · next hnallow =>
              split
              next heq => exact Or.inl rfl
              next new_from heq =>
                split
                next heq2 => exact Or.inl rfl
                next new_to heq2 =>
                  refine Or.inr ⟨rfl, ?_⟩
                  obtain ⟨hnf, hle⟩ := checked_sub_some heq
                  obtain ⟨hnt, hlt⟩ := checked_add128_some heq2
                  subst hnf hnt
                  exact mooInv_move st h fr t a hne hle

/-- Every reachable ledger state is coherent. -/
theorem mooReachable_inv {st : Moo} (h : MooReachable st) : MooInv st := by
  induction h with
  | init d =>
    refine ⟨?_, ∅, fun a _ => rfl, by simp [Moo.new]⟩
    show (0 : Nat) < 2 ^ 128
    norm_num
  | step st c hr hs ih =>
    rcases moo_exec_cases st c ih with he | ⟨-, hinv⟩
    · rw [he]; exact ih
    · exact hinv

theorem sum_filter_support (f : Nat → Nat) (s t : Finset Nat)
    (hs : ∀ a, a ∉ s → f a = 0) (ht : ∀ a, f a ≠ 0 → a ∈ t) :
    ∑ x ∈ s, f x = ∑ x ∈ t.filter (fun a => f a ≠ 0), f x := by
  rw [← Finset.sum_filter_ne_zero s]
  apply Finset.sum_congr
  · ext a
    simp only [Finset.mem_filter, and_comm]
    constructor
    · rintro ⟨ha, hne⟩
      exact ⟨ht a hne, hne⟩
    · rintro ⟨hat, hne⟩
      refine ⟨?_, hne⟩
      by_contra hns
      exact hne (hs a hns)
  · intro x _
    rfl

/-! ## Registry invariant: the dense per-owner index is a bijection -/

@[simp] theorem cntOf_insert (cntm : Mapping Nat Nat) (f v o : Nat) :
    cntOf (cntm.insert f v) o = if o = f then v else cntOf cntm o := by
  unfold cntOf
  rw [Mapping.get_insert]
  split <;> rfl

/-- A filled slot below the count determines the owner and reverse index. -/
theorem IdxOk.slot_facts {own cntm tbo oidx} (h : IdxOk own cntm tbo oidx)
    (o i u : Nat) (hi : i < cntOf cntm o) (hs : tbo.get (o, i) = some u) :
    own.get u = some o ∧ oidx.get u = some i := by
  obtain ⟨u2, hslot, hown, hidx⟩ := h.1 o i hi
  rw [hs] at hslot
  cases hslot
  exact ⟨hown, hidx⟩

/-- Appending a fresh token `t` for owner `r` at slot `count r` preserves
coherence, with `t` now owned by `r`. -/
theorem IdxOk.add_pres {own cntm tbo oidx} (h : IdxOk own cntm tbo oidx)
    (r t : Nat) (ht : own.get t = none) :
    IdxOk (own.insert t r) (cntm.insert r (cntOf cntm r + 1))
      (tbo.insert (r, cntOf cntm r) t) (oidx.insert t (cntOf cntm r)) := by
  obtain ⟨hA, hB, hC, hD⟩ := h
  refine ⟨?_, ?_, ?_, ?_⟩
  · intro o i hi
    rw [cntOf_insert] at hi
    by_cases hor : o = r
    · subst hor
      rw [if_pos rfl] at hi
      by_cases hic : i = cntOf cntm o
      · subst hic
        refine ⟨t, ?_, ?_, ?_⟩
        · rw [Mapping.get_insert, if_pos rfl]
        · rw [Mapping.get_insert, if_pos rfl]
        · rw [Mapping.get_insert, if_pos rfl]
      · have hi2 : i < cntOf cntm o := by omega
        obtain ⟨u, hslot, hown, hidx⟩ := hA o i hi2
        have hut : u ≠ t := fun hh => by rw [hh, ht] at hown; cases hown
        refine ⟨u, ?_, ?_, ?_⟩
        · rw [Mapping.get_insert, if_neg (by simp [hic]), hslot]
        · rw [Mapping.get_insert, if_neg hut, hown]
        · rw [Mapping.get_insert, if_neg hut, hidx]
    · rw [if_neg hor] at hi
      obtain ⟨u, hslot, hown, hidx⟩ := hA o i hi
      have hut : u ≠ t := fun hh => by rw [hh, ht] at hown; cases hown
      refine ⟨u, ?_, ?_, ?_⟩
      · rw [Mapping.get_insert, if_neg (by simp [hor]), hslot]
      · rw [Mapping.get_insert, if_neg hut, hown]
      · rw [Mapping.get_insert, if_neg hut, hidx]
  · intro o i hi
    rw [cntOf_insert] at hi
    by_cases hor : o = r
    · subst hor
      rw [if_pos rfl] at hi
      rw [Mapping.get_insert, if_neg (by simp; omega)]
      exact hB o i (by omega)
    · rw [if_neg hor] at hi
      rw [Mapping.get_insert, if_neg (by simp [hor])]
      exact hB o i hi
  · intro u o hu
    rw [Mapping.get_insert] at hu
    by_cases hut : u = t
    · rw [if_pos hut] at hu
      cases hu
      refine ⟨cntOf cntm r, ?_, ?_, ?_⟩
      · rw [cntOf_insert, if_pos rfl]; omega
      · rw [hut, Mapping.get_insert, if_pos rfl]
      · rw [Mapping.get_insert, if_pos rfl, hut]
    · rw [if_neg hut] at hu
      obtain ⟨i, hi, hidx, hslot⟩ := hC u o hu
      refine ⟨i, ?_, ?_, ?_⟩
      · rw [cntOf_insert]
        split <;> [skip; exact hi]
        next hor => rw [hor] at hi; omega
      · rw [Mapping.get_insert, if_neg hut, hidx]
      · rw [Mapping.get_insert, if_neg ?_, hslot]
        intro hh
        rw [Prod.mk.injEq] at hh
        obtain ⟨hor, hic⟩ := hh
        rw [hor] at hi
        omega
  · intro u hu
    rw [Mapping.get_insert] at hu
    by_cases hut : u = t
    · rw [if_pos hut] at hu; cases hu
    · rw [if_neg hut] at hu
      rw [Mapping.get_insert, if_neg hut]
      exact hD u hu

/-- Swap-with-last removal, moving case: removing token `t` of owner `f`
from slot `ri` while the last slot `count - 1` holds a different token `lt`
preserves coherence, with `t` no longer owned. -/
theorem IdxOk.remove_pres_swap {own cntm tbo oidx} (h : IdxOk own cntm tbo oidx)
    (f t ri lt : Nat) (ho : own.get t = some f)
    (hidx : oidx.get t = some ri)
    (hlast : tbo.get (f, cntOf cntm f - 1) = some lt)
    (hne : cntOf cntm f - 1 ≠ ri) :
    IdxOk (own.remove t) (cntm.insert f (cntOf cntm f - 1))
      ((tbo.insert (f, ri) lt).remove (f, cntOf cntm f - 1))
      ((oidx.insert lt ri).remove t) := by
  obtain ⟨hA, hB, hC, hD⟩ := h
  set c := cntOf cntm f with hc
  obtain ⟨ri2, hri2, hidx2, hslot_t⟩ := hC t f ho
  rw [hidx] at hidx2
  cases hidx2
  have hcpos : 0 < c := by omega
  obtain ⟨hown_lt, hidx_lt⟩ :=
    IdxOk.slot_facts ⟨hA, hB, hC, hD⟩ f (c - 1) lt (by omega) hlast
  have hlt_t : lt ≠ t := by
    intro hh
    rw [hh, hidx] at hidx_lt
    cases hidx_lt
    omega
  refine ⟨?_, ?_, ?_, ?_⟩
  · intro o i hi
    rw [cntOf_insert] at hi
    by_cases hof : o = f
    · subst hof
      rw [if_pos rfl] at hi
      by_cases hiri : i = ri
      · subst hiri
        refine ⟨lt, ?_, ?_, ?_⟩
        · rw [Mapping.get_remove, if_neg (by simp; omega), Mapping.get_insert,
            if_pos rfl]
        · rw [Mapping.get_remove, if_neg hlt_t, hown_lt]
        · rw [Mapping.get_remove, if_neg hlt_t, Mapping.get_insert, if_pos rfl]
      · obtain ⟨u, hslot, hown, huidx⟩ := hA o i (by omega)
        have hut : u ≠ t := by
          intro hh
          rw [hh, hidx] at huidx
          cases huidx
          exact hiri rfl
        have hult : u ≠ lt := by
          intro hh
          rw [hh, hidx_lt] at huidx
          cases huidx
          omega
        refine ⟨u, ?_, ?_, ?_⟩
        · rw [Mapping.get_remove, if_neg (by simp; omega), Mapping.get_insert,
            if_neg (by simp [hiri]), hslot]
        · rw [Mapping.get_remove, if_neg hut, hown]
        · rw [Mapping.get_remove, if_neg hut, Mapping.get_insert, if_neg hult,
            huidx]
    · rw [if_neg hof] at hi
      obtain ⟨u, hslot, hown, huidx⟩ := hA o i hi
      have hut : u ≠ t := by
        intro hh
        rw [hh, ho] at hown
        cases hown
        exact hof rfl
      have hult : u ≠ lt := by
        intro hh
        rw [hh, hown_lt] at hown
        cases hown
        exact hof rfl
      refine ⟨u, ?_, ?_, ?_⟩
      · rw [Mapping.get_remove, if_neg (by simp [hof]), Mapping.get_insert,
          if_neg (by simp [hof]), hslot]
      · rw [Mapping.get_remove, if_neg hut, hown]
      · rw [Mapping.get_remove, if_neg hut, Mapping.get_insert, if_neg hult,
          huidx]
  · intro o i hi
    rw [cntOf_insert] at hi
    by_cases hof : o = f
    · subst hof
      rw [if_pos rfl] at hi
      by_cases hic : i = c - 1
      · subst hic
        rw [Mapping.get_remove, if_pos rfl]
      · rw [Mapping.get_remove, if_neg (by simp [hic]), Mapping.get_insert,
          if_neg (by simp; omega)]
        exact hB o i (by omega)
    · rw [if_neg hof] at hi
      rw [Mapping.get_remove, if_neg (by simp [hof]), Mapping.get_insert,
        if_neg (by simp [hof])]
      exact hB o i hi
  · intro u o hu
    rw [Mapping.get_remove] at hu
    by_cases hut : u = t
    · rw [if_pos hut] at hu; cases hu
    · rw [if_neg hut] at hu
      by_cases hult : u = lt
      · subst hult
        rw [hown_lt] at hu
        cases hu
        refine ⟨ri, ?_, ?_, ?_⟩
        · rw [cntOf_insert, if_pos rfl]; omega
        · rw [Mapping.get_remove, if_neg hut, Mapping.get_insert, if_pos rfl]
        · rw [Mapping.get_remove, if_neg (by simp; omega), Mapping.get_insert,
            if_pos rfl]
      · obtain ⟨i, hi, huidx, hslot⟩ := hC u o hu
        by_cases hof : o = f
        · subst hof
          have hic : i ≠ c - 1 := by
            intro hh
            rw [hh, hlast] at hslot
            cases hslot
            exact hult rfl
          have hiri : i ≠ ri := by
            intro hh
            rw [hh, hslot_t] at hslot
            cases hslot
            exact hut rfl
          refine ⟨i, ?_, ?_, ?_⟩
          · rw [cntOf_insert, if_pos rfl]; omega
          · rw [Mapping.get_remove, if_neg hut, Mapping.get_insert,
              if_neg hult, huidx]
          · rw [Mapping.get_remove, if_neg (by simp [hic]), Mapping.get_insert,
              if_neg (by simp [hiri]), hslot]
        · refine ⟨i, ?_, ?_, ?_⟩
          · rw [cntOf_insert, if_neg hof]; exact hi
          · rw [Mapping.get_remove, if_neg hut, Mapping.get_insert,
              if_neg hult, huidx]
          · rw [Mapping.get_remove, if_neg (by simp [hof]), Mapping.get_insert,
              if_neg (by simp [hof]), hslot]
  · intro u hu
    rw [Mapping.get_remove] at hu
    by_cases hut : u = t
    · rw [Mapping.get_remove, if_pos hut]
    · rw [if_neg hut] at hu
      have hult : u ≠ lt := by
        intro hh
        rw [hh, hown_lt] at hu
        cases hu
      rw [Mapping.get_remove, if_neg hut, Mapping.get_insert, if_neg hult]
      exact hD u hu

/-- Swap-with-last removal, last-slot case: removing the token that sits in
the last slot just clears that slot. -/
theorem IdxOk.remove_pres_last {own cntm tbo oidx} (h : IdxOk own cntm tbo oidx)
    (f t : Nat) (ho : own.get t = some f)
    (hidx : oidx.get t = some (cntOf cntm f - 1)) :
    IdxOk (own.remove t) (cntm.insert f (cntOf cntm f - 1))
      (tbo.remove (f, cntOf cntm f - 1)) (oidx.remove t) := by
  obtain ⟨hA, hB, hC, hD⟩ := h
  set c := cntOf cntm f with hc
  obtain ⟨ri2, hri2, hidx2, hslot_t⟩ := hC t f ho
  rw [hidx] at hidx2
  cases hidx2
  have hcpos : 0 < c := by omega
  refine ⟨?_, ?_, ?_, ?_⟩
  · intro o i hi
    rw [cntOf_insert] at hi
    by_cases hof : o = f
    · subst hof
      rw [if_pos rfl] at hi
      obtain ⟨u, hslot, hown, huidx⟩ := hA o i (by omega)
      have hut : u ≠ t := by
        intro hh
        rw [hh, hidx] at huidx
        cases huidx
        omega
      refine ⟨u, ?_, ?_, ?_⟩
      · rw [Mapping.get_remove, if_neg (by simp; omega), hslot]
      · rw [Mapping.get_remove, if_neg hut, hown]
      · rw [Mapping.get_remove, if_neg hut, huidx]
    · rw [if_neg hof] at hi
      obtain ⟨u, hslot, hown, huidx⟩ := hA o i hi
      have hut : u ≠ t := by
        intro hh
        rw [hh, ho] at hown
        cases hown
        exact hof rfl
      refine ⟨u, ?_, ?_, ?_⟩
      · rw [Mapping.get_remove, if_neg (by simp [hof]), hslot]
      · rw [Mapping.get_remove, if_neg hut, hown]
      · rw [Mapping.get_remove, if_neg hut, huidx]
  · intro o i hi
    rw [cntOf_insert] at hi
    by_cases hof : o = f
    · subst hof
      rw [if_pos rfl] at hi
      by_cases hic : i = c - 1
      · subst hic
        rw [Mapping.get_remove, if_pos rfl]
      · rw [Mapping.get_remove, if_neg (by simp [hic])]
        exact hB o i (by omega)
    · rw [if_neg hof] at hi
      rw [Mapping.get_remove, if_neg (by simp [hof])]
      exact hB o i hi
  · intro u o hu
    rw [Mapping.get_remove] at hu
    by_cases hut : u = t
    · rw [if_pos hut] at hu; cases hu
    · rw [if_neg hut] at hu
      obtain ⟨i, hi, huidx, hslot⟩ := hC u o hu
      by_cases hof : o = f
      · subst hof
        have hic : i ≠ c - 1 := by
          intro hh
          rw [hh, hslot_t] at hslot
          cases hslot
          exact hut rfl
        refine ⟨i, ?_, ?_, ?_⟩
        · rw [cntOf_insert, if_pos rfl]; omega
        · rw [Mapping.get_remove, if_neg hut, huidx]
        · rw [Mapping.get_remove, if_neg (by simp [hic]), hslot]
      · refine ⟨i, ?_, ?_, ?_⟩
        · rw [cntOf_insert, if_neg hof]; exact hi
        · rw [Mapping.get_remove, if_neg hut, huidx]
        · rw [Mapping.get_remove, if_neg (by simp [hof]), hslot]
  · intro u hu
    rw [Mapping.get_remove] at hu
    by_cases hut : u = t
    · rw [Mapping.get_remove, if_pos hut]
    · rw [if_neg hut] at hu
      rw [Mapping.get_remove, if_neg hut]
      exact hD u hu

theorem Mapping.insert_remove_self {K V : Type} [DecidableEq K]
    (m : Mapping K V) (k : K) (v : V) :
    (m.remove k).insert k v = m.insert k v := by
  funext q
  show (if q = k then some v else (m.remove k) q) = if q = k then some v else m q
  by_cases hq : q = k
  · rw [if_pos hq, if_pos hq]
  · rw [if_neg hq, if_neg hq]
    show (if q = k then none else m q) = m q
    rw [if_neg hq]

/-- Successful append: explicit post-state of `add_token_to_owner`.  The
count of the receiving owner is abstracted as `c` so that the statement can
be instantiated at intermediate states. -/
theorem add_token_eq (st : NFMoo) (r t c : Nat) (hc0 : st.balance_of r = c)
    (hfit : c + 1 < 2 ^ 32) :
    NFMoo.add_token_to_owner st r t = (none,
      { st with
        tokens_by_owner := st.tokens_by_owner.insert (r, c) t
        owned_index := st.owned_index.insert t c
        owned_count := st.owned_count.insert r (c + 1) }) := by
  simp only [NFMoo.add_token_to_owner, hc0, checked_add32, if_pos hfit]

/-- Failed append: the count would overflow `u32`; the two index writes of
the failing call are left behind. -/
theorem add_token_eq_fail (st : NFMoo) (r t c : Nat) (hc0 : st.balance_of r = c)
    (hfit : ¬ c + 1 < 2 ^ 32) :
    NFMoo.add_token_to_owner st r t = (some .Overflow,
      { st with
        tokens_by_owner := st.tokens_by_owner.insert (r, c) t
        owned_index := st.owned_index.insert t c }) := by
  simp only [NFMoo.add_token_to_owner, hc0, checked_add32, if_neg hfit]

/-- Successful swap-remove, moving case (`remove_index` is not the last
slot): explicit post-state. -/
theorem remove_token_eq_swap (st : NFMoo) (f t ri lt c : Nat)
    (hc0 : st.balance_of f = c) (hc : 0 < c)
    (hidx : st.owned_index.get t = some ri)
    (hlast : st.tokens_by_owner.get (f, c - 1) = some lt)
    (hne : c - 1 ≠ ri) :
    NFMoo.remove_token_from_owner st f t = (none,
      { st with
        tokens_by_owner := (st.tokens_by_owner.insert (f, ri) lt).remove
          (f, c - 1)
        owned_index := (st.owned_index.insert lt ri).remove t
        owned_count := st.owned_count.insert f (c - 1) }) := by
  have h0 : ¬ c = 0 := by omega
  simp only [NFMoo.remove_token_from_owner, hc0, if_neg h0, hidx, hlast,
    hne, ite_true, if_pos hne]

/-- Successful swap-remove, last-slot case. -/
theorem remove_token_eq_last (st : NFMoo) (f t lt c : Nat)
    (hc0 : st.balance_of f = c) (hc : 0 < c)
    (hidx : st.owned_index.get t = some (c - 1))
    (hlast : st.tokens_by_owner.get (f, c - 1) = some lt) :
    NFMoo.remove_token_from_owner st f t = (none,
      { st with
        tokens_by_owner := st.tokens_by_owner.remove (f, c - 1)
        owned_index := st.owned_index.remove t
        owned_count := st.owned_count.insert f (c - 1) }) := by
  have h0 : ¬ c = 0 := by omega
  simp only [NFMoo.remove_token_from_owner, hc0, if_neg h0, hidx, hlast,
    ne_eq, not_true_eq_false, ite_false,
    if_neg (by omega : ¬ (c - 1 ≠ c - 1))]

/-- One fresh-token mint iteration preserves registry coherence. -/
theorem NFInv.mint_iter {st : NFMoo} (h : NFInv st) (caller : Nat)
    (ht : st.owner_by_id.get st.next_id = none) :
    NFInv
      { st with
        next_id := st.next_id + 1
        owner_by_id := st.owner_by_id.insert st.next_id caller
        tokens_by_owner := st.tokens_by_owner.insert
          (caller, st.balance_of caller) st.next_id
        owned_index := st.owned_index.insert st.next_id (st.balance_of caller)
        owned_count := st.owned_count.insert caller (st.balance_of caller + 1)
        supply_cnt := st.supply_cnt + 1 } := by
  obtain ⟨hidx, hE, live, hlive, hcard⟩ := h
  refine ⟨?_, ?_, ?_⟩
  · exact IdxOk.add_pres hidx caller st.next_id ht
  · intro u hu
    show u < st.next_id + 1
    rw [Mapping.get_insert] at hu
    by_cases hut : u = st.next_id
    · omega
    · rw [if_neg hut] at hu
      have := hE u hu
      omega
  · refine ⟨insert st.next_id live, ?_, ?_⟩
    · intro u
      rw [Mapping.get_insert]
      by_cases hut : u = st.next_id
      · subst hut
        simp [hlive]
      · rw [if_neg hut, Finset.mem_insert]
        simp [hut, hlive]
    · show st.supply_cnt + 1 = _
      have hnm : st.next_id ∉ live := by
        intro hmem
        have := (hlive st.next_id).1 hmem
        rw [ht] at this
        cases this
      rw [Finset.card_insert_of_not_mem hnm, hcard]

/-- One loop body from a coherent state: success preserves coherence, and
any failure is an `Overflow`. -/
theorem mint_body_cases (st : NFMoo) (caller : Nat) (h : NFInv st) :
    ((NFMoo.mint_body st caller).1 = none →
      NFInv (NFMoo.mint_body st caller).2) ∧
    ((NFMoo.mint_body st caller).1 ≠ none →
      (NFMoo.mint_body st caller).1 = some .Overflow) := by
  have hfresh : st.owner_by_id.get st.next_id = none := by
    cases hopt : st.owner_by_id.get st.next_id with
    | none => rfl
    | some x =>
      have := h.2.1 st.next_id (by rw [hopt]; exact fun hh => by cases hh)
      omega
  simp only [NFMoo.mint_body]
  by_cases hnid : st.next_id + 1 < 2 ^ 128
  · have hnext : checked_add128 st.next_id 1 = some (st.next_id + 1) := by
      unfold checked_add128
      rw [if_pos hnid]
    simp only [hnext]
    by_cases hfit : st.balance_of caller + 1 < 2 ^ 32
    · have hadd := add_token_eq
        { st with
          next_id := st.next_id + 1
          owner_by_id := st.owner_by_id.insert st.next_id caller }
        caller st.next_id (st.balance_of caller) rfl hfit
      rw [hadd]
      simp only []
      by_cases hsup : st.supply_cnt + 1 < 2 ^ 128
      · have hsupeq : checked_add128 st.supply_cnt 1 =
            some (st.supply_cnt + 1) := by
          unfold checked_add128
          rw [if_pos hsup]
        rw [hsupeq]
        refine ⟨fun _ => ?_, fun hne => absurd rfl hne⟩
        exact h.mint_iter caller hfresh
      · have hsupeq : checked_add128 st.supply_cnt 1 = none := by
          unfold checked_add128
          rw [if_neg hsup]
        rw [hsupeq]
        exact ⟨fun hc => Option.noConfusion hc, fun _ => by trivial⟩
    · have hadd := add_token_eq_fail
        { st with
          next_id := st.next_id + 1
          owner_by_id := st.owner_by_id.insert st.next_id caller }
        caller st.next_id (st.balance_of caller) rfl hfit
      rw [hadd]
      exact ⟨fun hc => Option.noConfusion hc, fun _ => by trivial⟩
  · have hnext : checked_add128 st.next_id 1 = none := by
      unfold checked_add128
      rw [if_neg hnid]
    simp only [hnext]
    exact ⟨fun hc => Option.noConfusion hc, fun _ => by trivial⟩

/-- One full loop iteration from a coherent state. -/
theorem mint_one_cases (st : NFMoo) (caller : Nat) (h : NFInv st) :
    ((NFMoo.mint_one st caller).1 = none → NFInv (NFMoo.mint_one st caller).2) ∧
    ((NFMoo.mint_one st caller).1 ≠ none →
      (NFMoo.mint_one st caller).1 = some .Overflow) := by
  rcases hmax : st.max_supply_opt with - | m
  · simp only [NFMoo.mint_one, hmax]
    exact mint_body_cases st caller h
  · simp only [NFMoo.mint_one, hmax]
    by_cases hcap : st.supply_cnt ≥ m
    · rw [if_pos hcap]
      exact ⟨fun hc => Option.noConfusion hc, fun _ => rfl⟩
    · rw [if_neg hcap]
      exact mint_body_cases st caller h

/-- The whole minting loop from a coherent state. -/
theorem mint_loop_cases (caller : Nat) : ∀ (n : Nat) (st : NFMoo), NFInv st →
    (((NFMoo.mint_loop st caller n).1 = none →
        NFInv (NFMoo.mint_loop st caller n).2) ∧
     ((NFMoo.mint_loop st caller n).1 ≠ none →
        (NFMoo.mint_loop st caller n).1 = some .Overflow)) := by
  intro n
  induction n with
  | zero =>
    intro st h
    exact ⟨fun _ => h, fun hne => absurd rfl hne⟩
  | succ n ih =>
    intro st h
    simp only [NFMoo.mint_loop]
    rcases hone : NFMoo.mint_one st caller with ⟨res, st2⟩
    cases res with
    | some e =>
      simp only [hone]
      have h2 := (mint_one_cases st caller h).2 (by rw [hone]; exact fun hh => by cases hh)
      rw [hone] at h2
      exact ⟨fun hc => Option.noConfusion hc, fun _ => h2⟩
    | none =>
      simp only [hone]
      have hinv2 := (mint_one_cases st caller h).1 (by rw [hone])
      rw [hone] at hinv2
      exact ih st2 hinv2

theorem balance_cnt (st : NFMoo) (o : Nat) :
    st.balance_of o = cntOf st.owned_count o := rfl

/-- Case analysis of one registry call from a coherent state: success
preserves coherence; a failing call either left the state untouched or is an
`Overflow` failure of `mint_n` or `transfer` (the only two calls that can
write before failing). -/
theorem nf_exec_cases (st : NFMoo) (c : NFCall) (h : NFInv st) :
    ((NFMoo.exec st c).1 = none → NFInv (NFMoo.exec st c).2) ∧
    ((NFMoo.exec st c).1 ≠ none →
      (NFMoo.exec st c).2 = st ∨
      ((NFMoo.exec st c).1 = some .Overflow ∧
        ((∃ a n, c = NFCall.mint_n a n) ∨ (∃ a b i, c = NFCall.transfer a b i)))) := by
  cases c with
  | set_pause caller flag =>
    simp only [NFMoo.exec, NFMoo.set_pause]
    split
    · exact ⟨fun hc => Option.noConfusion hc, fun _ => Or.inl (by trivial)⟩
    · exact ⟨fun _ => h, fun hne => absurd rfl hne⟩
  | set_minter caller m flag =>
    simp only [NFMoo.exec, NFMoo.set_minter]
    split
    · exact ⟨fun hc => Option.noConfusion hc, fun _ => Or.inl (by trivial)⟩
    · exact ⟨fun _ => h, fun hne => absurd rfl hne⟩
  | approve caller appr token_id =>
    simp only [NFMoo.exec, NFMoo.approve]
    split
    · exact ⟨fun hc => Option.noConfusion hc, fun _ => Or.inl (by trivial)⟩
    · rcases hown : st.owner_by_id.get token_id with - | f
      all_goals simp only [hown]
      · exact ⟨fun hc => Option.noConfusion hc, fun _ => Or.inl (by trivial)⟩
      · split
        · exact ⟨fun hc => Option.noConfusion hc, fun _ => Or.inl (by trivial)⟩
        · exact ⟨fun _ => h, fun hne => absurd rfl hne⟩
  | set_approval_for_all caller oper flag =>
    simp only [NFMoo.exec, NFMoo.set_approval_for_all]
    split
    · exact ⟨fun hc => Option.noConfusion hc, fun _ => Or.inl (by trivial)⟩
    · split
      · exact ⟨fun hc => Option.noConfusion hc, fun _ => Or.inl (by trivial)⟩
      · exact ⟨fun _ => h, fun hne => absurd rfl hne⟩
  | mint_n caller amount =>
    simp only [NFMoo.exec, NFMoo.mint_n]
    split
    · exact ⟨fun hc => Option.noConfusion hc, fun _ => Or.inl (by trivial)⟩
    · split
      · exact ⟨fun hc => Option.noConfusion hc, fun _ => Or.inl (by trivial)⟩
      · split
        · exact ⟨fun hc => Option.noConfusion hc, fun _ => Or.inl (by trivial)⟩
        · split
          · exact ⟨fun hc => Option.noConfusion hc, fun _ => Or.inl (by trivial)⟩
          · have hl := mint_loop_cases caller amount st h
            exact ⟨hl.1, fun hne => Or.inr ⟨hl.2 hne, Or.inl ⟨caller, amount, rfl⟩⟩⟩
  | burn caller token_id =>
    simp only [NFMoo.exec, NFMoo.burn]
    split
    · exact ⟨fun hc => Option.noConfusion hc, fun _ => Or.inl (by trivial)⟩
    · rcases hown : st.owner_by_id.get token_id with - | f
      all_goals simp only [hown]
      · exact ⟨fun hc => Option.noConfusion hc, fun _ => Or.inl (by trivial)⟩
      · split
        · exact ⟨fun hc => Option.noConfusion hc, fun _ => Or.inl (by trivial)⟩
        · -- successful removal path
          obtain ⟨ri, hri_lt, hidx_t, hslot_t⟩ := h.1.2.2.1 token_id f hown
          obtain ⟨live, hlive, hcard⟩ := h.2.2
          have ht_live : token_id ∈ live :=
            (hlive token_id).2 (by rw [hown]; rfl)
          have hsup_pos : 0 < st.supply_cnt := by
            have := Finset.card_pos.mpr ⟨token_id, ht_live⟩
            omega
          have hsub : checked_sub st.supply_cnt 1 = some (st.supply_cnt - 1) := by
            unfold checked_sub
            rw [if_pos (by omega)]
          have hlive2 : ∀ u, u ∈ live.erase token_id ↔
              ((st.owner_by_id.remove token_id).get u).isSome := by
            intro u
            rw [Finset.mem_erase, Mapping.get_remove]
            by_cases hut : u = token_id
            · subst hut
              simp
            · rw [if_neg hut]
              constructor
              · rintro ⟨-, hm⟩
                exact (hlive u).1 hm
              · intro hs
                exact ⟨hut, (hlive u).2 hs⟩
          have hcard2 : st.supply_cnt - 1 = (live.erase token_id).card := by
            rw [Finset.card_erase_of_mem ht_live]
            omega
          have hE2 : ∀ u, (st.owner_by_id.remove token_id).get u ≠ none →
              u < st.next_id := by
            intro u hu
            rw [Mapping.get_remove] at hu
            by_cases hut : u = token_id
            · rw [if_pos hut] at hu
              exact absurd rfl hu
            · rw [if_neg hut] at hu
              exact h.2.1 u hu
          simp only [NFMoo.clear_token_approval]
          by_cases hri : cntOf st.owned_count f - 1 = ri
          · -- token sits in the last slot
            have hrem := remove_token_eq_last
              { st with token_approval := st.token_approval.remove token_id }
              f token_id token_id (cntOf st.owned_count f) rfl (by omega)
              (by rw [hri]; exact hidx_t)
              (by rw [hri]; exact hslot_t)
            rw [hrem]
            simp only [hsub]
            refine ⟨fun _ => ?_, fun hne => absurd rfl hne⟩
            refine ⟨?_, hE2, live.erase token_id, hlive2, hcard2⟩
            exact IdxOk.remove_pres_last h.1 f token_id hown
              (by rw [hri]; exact hidx_t)
          · -- swap with the token in the last slot
            obtain ⟨lt, hlast, hlt_own, hlt_idx⟩ :=
              h.1.1 f (cntOf st.owned_count f - 1) (by omega)
            have hrem := remove_token_eq_swap
              { st with token_approval := st.token_approval.remove token_id }
              f token_id ri lt (cntOf st.owned_count f) rfl (by omega)
              hidx_t hlast hri
            rw [hrem]
            simp only [hsub]
            refine ⟨fun _ => ?_, fun hne => absurd rfl hne⟩
            refine ⟨?_, hE2, live.erase token_id, hlive2, hcard2⟩
            exact IdxOk.remove_pres_swap h.1 f token_id ri lt hown hidx_t
              hlast hri
  | transfer caller to_acc token_id =>
    simp only [NFMoo.exec, NFMoo.transfer]
    split
    · exact ⟨fun hc => Option.noConfusion hc, fun _ => Or.inl (by trivial)⟩
    · rcases happr : st.is_approved_or_owner caller token_id with - | e
      all_goals simp only [happr]
      case some =>
        exact ⟨fun hc => Option.noConfusion hc, fun _ => Or.inl (by trivial)⟩
      case none =>
      rcases hown : st.owner_by_id.get token_id with - | f
      all_goals simp only [hown]
      · exact ⟨fun hc => Option.noConfusion hc, fun _ => Or.inl (by trivial)⟩
      · split
        · exact ⟨fun hc => Option.noConfusion hc, fun _ => Or.inl (by trivial)⟩
        · next hne_ft =>
          obtain ⟨ri, hri_lt, hidx_t, hslot_t⟩ := h.1.2.2.1 token_id f hown
          obtain ⟨live, hlive, hcard⟩ := h.2.2
          have ht_live : token_id ∈ live :=
            (hlive token_id).2 (by rw [hown]; rfl)
          have htof : to_acc ≠ f := fun hh => hne_ft (hh ▸ rfl)
          have hE3 : ∀ u, (st.owner_by_id.insert token_id to_acc).get u ≠ none →
              u < st.next_id := by
            intro u hu
            rw [Mapping.get_insert] at hu
            by_cases hut : u = token_id
            · subst hut
              exact h.2.1 _ (by rw [hown]; exact fun hh => by cases hh)
            · rw [if_neg hut] at hu
              exact h.2.1 u hu
          have hlive3 : ∀ u, u ∈ live ↔
              ((st.owner_by_id.insert token_id to_acc).get u).isSome := by
            intro u
            rw [Mapping.get_insert]
            by_cases hut : u = token_id
            · subst hut
              simp [ht_live]
            · rw [if_neg hut]
              exact hlive u
          have hcnt_to : cntOf (st.owned_count.insert f
              (cntOf st.owned_count f - 1)) to_acc = st.balance_of to_acc := by
            rw [cntOf_insert, if_neg htof]
            rfl
          simp only [NFMoo.clear_token_approval]
          by_cases hri : cntOf st.owned_count f - 1 = ri
          · -- remove from the last slot, then append to the recipient
            have hrem := remove_token_eq_last
              { st with token_approval := st.token_approval.remove token_id }
              f token_id token_id (cntOf st.owned_count f) rfl (by omega)
              (by rw [hri]; exact hidx_t)
              (by rw [hri]; exact hslot_t)
            rw [hrem]
            simp only []
            have hik := IdxOk.remove_pres_last h.1 f token_id hown
              (by rw [hri]; exact hidx_t)
            have hik2 := IdxOk.add_pres hik to_acc token_id
              (by rw [Mapping.get_remove, if_pos rfl])
            rw [Mapping.insert_remove_self, hcnt_to] at hik2
            by_cases hfit : st.balance_of to_acc + 1 < 2 ^ 32
            · have hadd := add_token_eq
                { st with
                  token_approval := st.token_approval.remove token_id
                  tokens_by_owner := st.tokens_by_owner.remove
                    (f, cntOf st.owned_count f - 1)
                  owned_index := st.owned_index.remove token_id
                  owned_count := st.owned_count.insert f
                    (cntOf st.owned_count f - 1)
                  owner_by_id := st.owner_by_id.insert token_id to_acc }
                to_acc token_id (st.balance_of to_acc) hcnt_to hfit
              rw [hadd]
              refine ⟨fun _ => ?_, fun hne => absurd rfl hne⟩
              exact ⟨hik2, hE3, live, hlive3, hcard⟩
            · have hadd := add_token_eq_fail
                { st with
                  token_approval := st.token_approval.remove token_id
                  tokens_by_owner := st.tokens_by_owner.remove
                    (f, cntOf st.owned_count f - 1)
                  owned_index := st.owned_index.remove token_id
                  owned_count := st.owned_count.insert f
                    (cntOf st.owned_count f - 1)
                  owner_by_id := st.owner_by_id.insert token_id to_acc }
                to_acc token_id (st.balance_of to_acc) hcnt_to hfit
              rw [hadd]
              exact ⟨fun hc => Option.noConfusion hc,
                fun _ => Or.inr ⟨rfl, Or.inr ⟨caller, to_acc, token_id, rfl⟩⟩⟩
          · -- swap-remove, then append to the recipient
            obtain ⟨lt, hlast, hlt_own, hlt_idx⟩ :=
              h.1.1 f (cntOf st.owned_count f - 1) (by omega)
            have hrem := remove_token_eq_swap
              { st with token_approval := st.token_approval.remove token_id }
              f token_id ri lt (cntOf st.owned_count f) rfl (by omega)
              hidx_t hlast hri
            rw [hrem]
            simp only []
            have hik := IdxOk.remove_pres_swap h.1 f token_id ri lt hown hidx_t
              hlast hri
            have hik2 := IdxOk.add_pres hik to_acc token_id
              (by rw [Mapping.get_remove, if_pos rfl])
            rw [Mapping.insert_remove_self, hcnt_to] at hik2
            by_cases hfit : st.balance_of to_acc + 1 < 2 ^ 32
            · have hadd := add_token_eq
                { st with
                  token_approval := st.token_approval.remove token_id
                  tokens_by_owner := (st.tokens_by_owner.insert (f, ri)
                    lt).remove (f, cntOf st.owned_count f - 1)
                  owned_index := (st.owned_index.insert lt ri).remove token_id
                  owned_count := st.owned_count.insert f
                    (cntOf st.owned_count f - 1)
                  owner_by_id := st.owner_by_id.insert token_id to_acc }
                to_acc token_id (st.balance_of to_acc) hcnt_to hfit
              rw [hadd]
              refine ⟨fun _ => ?_, fun hne => absurd rfl hne⟩
              exact ⟨hik2, hE3, live, hlive3, hcard⟩
            · have hadd := add_token_eq_fail
                { st with
                  token_approval := st.token_approval.remove token_id
                  tokens_by_owner := (st.tokens_by_owner.insert (f, ri)
                    lt).remove (f, cntOf st.owned_count f - 1)
                  owned_index := (st.owned_index.insert lt ri).remove token_id
                  owned_count := st.owned_count.insert f
                    (cntOf st.owned_count f - 1)
                  owner_by_id := st.owner_by_id.insert token_id to_acc }
                to_acc token_id (st.balance_of to_acc) hcnt_to hfit
              rw [hadd]
              exact ⟨fun hc => Option.noConfusion hc,
                fun _ => Or.inr ⟨rfl, Or.inr ⟨caller, to_acc, token_id, rfl⟩⟩⟩

/-- Every reachable registry state is coherent. -/
theorem nfReachable_inv {st : NFMoo} (h : NFReachable st) : NFInv st := by
  induction h with
  | init d m =>
    refine ⟨⟨?_, ?_, ?_, ?_⟩, ?_, ∅, ?_, rfl⟩
    · intro o i hi
      simp [cntOf, Mapping.get_empty, NFMoo.new] at hi
    · intro o i _
      rfl
    · intro u o hu
      exact Option.noConfusion hu
    · intro u _
      rfl
    · intro t ht
      exact absurd rfl ht
    · intro t
      simp [NFMoo.new, Mapping.get_empty]
  | step st c hr hs ih =>
    exact (nf_exec_cases st c ih).1 hs

/-- The dense index gives a counting bijection: the stored count of an owner
equals the number of live tokens it owns. -/
theorem IdxOk.card_eq {own cntm tbo oidx} (h : IdxOk own cntm tbo oidx)
    (live : Finset Nat) (hlive : ∀ t, t ∈ live ↔ (own.get t).isSome) (o : Nat) :
    cntOf cntm o = (live.filter (fun t => own.get t = some o)).card := by
  set c := cntOf cntm o with hc
  set S := live.filter (fun t => own.get t = some o) with hS
  have himg : (Finset.range c).image (fun i => (tbo.get (o, i)).getD 0) = S := by
    ext u
    simp only [Finset.mem_image, Finset.mem_range, hS, Finset.mem_filter]
    constructor
    · rintro ⟨i, hi, hu⟩
      obtain ⟨t, hslot, hown, hidx⟩ := h.1 o i hi
      rw [hslot] at hu
      simp only [Option.getD_some] at hu
      subst hu
      exact ⟨(hlive t).2 (by rw [hown]; rfl), hown⟩
    · rintro ⟨-, hown⟩
      obtain ⟨i, hi, hidx, hslot⟩ := h.2.2.1 u o hown
      exact ⟨i, hi, by rw [hslot]; rfl⟩
  have hinj : Set.InjOn (fun i => (tbo.get (o, i)).getD 0)
      ↑(Finset.range c) := by
    intro i hi j hj hij
    simp only [Finset.coe_range, Set.mem_Iio] at hi hj
    obtain ⟨ti, hsi, hoi, hii⟩ := h.1 o i hi
    obtain ⟨tj, hsj, hoj, hjj⟩ := h.1 o j hj
    simp only [hsi, hsj, Option.getD_some] at hij
    subst hij
    rw [hii] at hjj
    cases hjj
    rfl
  have hcard := Finset.card_image_of_injOn hinj
  rw [himg] at hcard
  rw [hcard, Finset.card_range]

/-! ## Claim theorems -/

/-- C1: for every reachable registry state and every owner, `balance_of`
equals the number of token ids whose `owner_of` is that owner, the slots
`0..count` hold exactly those ids with no duplicates and no gaps,
`owned_index` maps each owned id back to its slot, and no stale
`tokens_by_owner` or `owned_index` entry exists at or beyond the live
count. -/
theorem c1_ownership_index_bijective (st : NFMoo) (h : NFReachable st)
    (owner_acc : Nat) :
    (∃ owned : Finset Nat,
        (∀ t, t ∈ owned ↔ st.owner_of t = some owner_acc) ∧
        st.balance_of owner_acc = owned.card) ∧
    (∀ i, i < st.balance_of owner_acc →
        ∃ t, st.tokens_by_owner.get (owner_acc, i) = some t ∧
          st.owner_of t = some owner_acc ∧ st.owned_index.get t = some i) ∧
    (∀ i j ti tj, i < st.balance_of owner_acc → j < st.balance_of owner_acc →
        st.tokens_by_owner.get (owner_acc, i) = some ti →
        st.tokens_by_owner.get (owner_acc, j) = some tj → ti = tj → i = j) ∧
    (∀ t, st.owner_of t = some owner_acc →
        ∃ i, i < st.balance_of owner_acc ∧ st.owned_index.get t = some i ∧
          st.tokens_by_owner.get (owner_acc, i) = some t) ∧
    (∀ i, st.balance_of owner_acc ≤ i →
        st.tokens_by_owner.get (owner_acc, i) = none) ∧
    (∀ t i, st.owner_of t = some owner_acc → st.owned_index.get t = some i →
        i < st.balance_of owner_acc) ∧
    (∀ t, st.owner_of t = none → st.owned_index.get t = none) := by
  obtain ⟨hidx, hE, live, hlive, hcard⟩ := nfReachable_inv h
  refine ⟨⟨live.filter (fun t => st.owner_by_id.get t = some owner_acc),
      ?_, ?_⟩, ?_, ?_, fun t ht => hidx.2.2.1 t owner_acc ht,
      fun i hi => hidx.2.1 owner_acc i hi, ?_, hidx.2.2.2⟩
  · intro t
    rw [Finset.mem_filter]
    refine ⟨fun hh => hh.2, fun hh => ⟨(hlive t).2 ?_, hh⟩⟩
    show (st.owner_of t).isSome = true
    rw [hh]
    rfl
  · exact hidx.card_eq live hlive owner_acc
  · exact fun i hi => hidx.1 owner_acc i hi
  · intro i j ti tj hi hj hsi hsj hij
    obtain ⟨-, hidxi⟩ := hidx.slot_facts owner_acc i ti hi hsi
    obtain ⟨-, hidxj⟩ := hidx.slot_facts owner_acc j tj hj hsj
    subst hij
    rw [hidxi] at hidxj
    cases hidxj
    rfl
  · intro t i ho hi
    obtain ⟨i2, hi2, hidx2, -⟩ := hidx.2.2.1 t owner_acc ho
    rw [hi] at hidx2
    cases hidx2
    exact hi2

theorem nfS2_reachable : NFReachable nfS2 :=
  NFReachable.step nfS1 (NFCall.mint_n 5 3)
    (NFReachable.step (NFMoo.new 0 none) (NFCall.set_minter 0 5 true)
      (NFReachable.init 0 none) (by decide)) (by decide)

theorem nfS3_reachable : NFReachable nfS3 :=
  NFReachable.step nfS2 (NFCall.transfer 5 9 1) nfS2_reachable (by decide)

/-- C1 witness: the invariant instantiated at a concrete reachable state. -/
theorem c1_ownership_index_bijective_witness :
    NFReachable nfS3 ∧
    ((∃ owned : Finset Nat,
        (∀ t, t ∈ owned ↔ nfS3.owner_of t = some 5) ∧
        nfS3.balance_of 5 = owned.card) ∧
    (∀ i, i < nfS3.balance_of 5 →
        ∃ t, nfS3.tokens_by_owner.get (5, i) = some t ∧
          nfS3.owner_of t = some 5 ∧ nfS3.owned_index.get t = some i) ∧
    (∀ i j ti tj, i < nfS3.balance_of 5 → j < nfS3.balance_of 5 →
        nfS3.tokens_by_owner.get (5, i) = some ti →
        nfS3.tokens_by_owner.get (5, j) = some tj → ti = tj → i = j) ∧
    (∀ t, nfS3.owner_of t = some 5 →
        ∃ i, i < nfS3.balance_of 5 ∧ nfS3.owned_index.get t = some i ∧
          nfS3.tokens_by_owner.get (5, i) = some t) ∧
    (∀ i, nfS3.balance_of 5 ≤ i → nfS3.tokens_by_owner.get (5, i) = none) ∧
    (∀ t i, nfS3.owner_of t = some 5 → nfS3.owned_index.get t = some i →
        i < nfS3.balance_of 5) ∧
    (∀ t, nfS3.owner_of t = none → nfS3.owned_index.get t = none)) :=
  ⟨nfS3_reachable, c1_ownership_index_bijective nfS3 nfS3_reachable 5⟩

/-- C2: in every reachable ledger state the total supply equals the sum of
the balances over the accounts with non-zero balance (any finite set
containing all accounts of non-zero balance, filtered down to those). -/
theorem c2_total_supply_is_balance_sum (st : Moo) (h : MooReachable st)
    (supp : Finset Nat) (hsupp : ∀ a, st.balance_of a ≠ 0 → a ∈ supp) :
    st.total_supply =
      ∑ a ∈ supp.filter (fun a => st.balance_of a ≠ 0), st.balance_of a := by
  obtain ⟨-, s0, hz, hsum⟩ := mooReachable_inv h
  rw [hsum]
  exact sum_filter_support st.balance_of s0 supp hz hsupp

theorem mooS2_reachable : MooReachable mooS2 :=
  MooReachable.step mooS1 (MooCall.mint 5 100)
    (MooReachable.step (Moo.new 0) (MooCall.set_minter 0 5 true)
      (MooReachable.init 0) (by decide)) (by decide)

/-- C2 witness: the supply-sum equation at a concrete reachable state. -/
theorem c2_total_supply_is_balance_sum_witness :
    MooReachable mooS2 ∧
    (∀ a, mooS2.balance_of a ≠ 0 → a ∈ ({5} : Finset Nat)) ∧
    mooS2.total_supply =
      ∑ a ∈ ({5} : Finset Nat).filter (fun a => mooS2.balance_of a ≠ 0),
        mooS2.balance_of a := by
  have hbal : mooS2.balances = Mapping.empty.insert 5 100 := rfl
  have hsupp : ∀ a, mooS2.balance_of a ≠ 0 → a ∈ ({5} : Finset Nat) := by
    intro a ha
    by_cases h5 : a = 5
    · rw [h5]
      exact Finset.mem_singleton_self 5
    · exfalso
      apply ha
      show (mooS2.balances.get a).getD 0 = 0
      rw [hbal, Mapping.get_insert, if_neg h5]
      rfl
  exact ⟨mooS2_reachable, hsupp,
    c2_total_supply_is_balance_sum mooS2 mooS2_reachable {5} hsupp⟩

/-- C9: on a paused registry, `mint_n` and `transfer` fail with `Paused` and
leave the state unchanged, while the pure reads `owner_of` and `balance_of`
are unaffected by the pause flag. -/
theorem c9_pause_gates_mutations (st : NFMoo) (hp : st.paused_flag = true) :
    (∀ caller_acc amount_cnt,
        NFMoo.exec st (.mint_n caller_acc amount_cnt) = (some .Paused, st)) ∧
    (∀ caller_acc to_acc token_id,
        NFMoo.exec st (.transfer caller_acc to_acc token_id) =
          (some .Paused, st)) ∧
    (∀ token_id, NFMoo.owner_of { st with paused_flag := false } token_id =
        st.owner_of token_id) ∧
    (∀ owner_acc, NFMoo.balance_of { st with paused_flag := false } owner_acc =
        st.balance_of owner_acc) := by
  refine ⟨?_, ?_, fun _ => rfl, fun _ => rfl⟩
  · intro c n
    simp only [NFMoo.exec, NFMoo.mint_n, hp, if_true]
  · intro c t i
    simp only [NFMoo.exec, NFMoo.transfer, hp, if_true]

/-- C9 witness: instantiated at a concrete paused registry. -/
theorem c9_pause_gates_mutations_witness :
    nfPaused.paused_flag = true ∧
    ((∀ caller_acc amount_cnt,
        NFMoo.exec nfPaused (.mint_n caller_acc amount_cnt) =
          (some .Paused, nfPaused)) ∧
    (∀ caller_acc to_acc token_id,
        NFMoo.exec nfPaused (.transfer caller_acc to_acc token_id) =
          (some .Paused, nfPaused)) ∧
    (∀ token_id, NFMoo.owner_of { nfPaused with paused_flag := false }
        token_id = nfPaused.owner_of token_id) ∧
    (∀ owner_acc, NFMoo.balance_of { nfPaused with paused_flag := false }
        owner_acc = nfPaused.balance_of owner_acc)) :=
  ⟨rfl, c9_pause_gates_mutations nfPaused rfl⟩

/-- C7: removing an owned item reads the item in the last slot; when the
removed slot is not the last, the last item moves into it and its reverse
index is updated; the last slot is cleared and the count decremented.  The
scenario: after minting items 0, 1, 2 and transferring item 1 away, the
sender holds items `[0, 2]` in slot order with balance 2. -/
theorem c7_swap_remove_semantics (st : NFMoo) (from_acc token_id count_val
    remove_index last_token_id : Nat)
    (hc : st.balance_of from_acc = count_val) (hpos : 0 < count_val)
    (hidx : st.owned_index.get token_id = some remove_index)
    (hlast : st.tokens_by_owner.get (from_acc, count_val - 1) =
      some last_token_id)
    (hmoved : count_val - 1 ≠ remove_index → last_token_id ≠ token_id) :
    ((NFMoo.remove_token_from_owner st from_acc token_id).1 = none ∧
     (NFMoo.remove_token_from_owner st from_acc token_id).2.balance_of
       from_acc = count_val - 1 ∧
     (NFMoo.remove_token_from_owner st from_acc
       token_id).2.tokens_by_owner.get (from_acc, count_val - 1) = none ∧
     (count_val - 1 ≠ remove_index →
       (NFMoo.remove_token_from_owner st from_acc
         token_id).2.tokens_by_owner.get (from_acc, remove_index) =
           some last_token_id ∧
       (NFMoo.remove_token_from_owner st from_acc token_id).2.owned_index.get
         last_token_id = some remove_index) ∧
     (NFMoo.remove_token_from_owner st from_acc token_id).2.owned_index.get
       token_id = none) ∧
    (nfS3.balance_of 5 = 2 ∧ nfS3.tokens_of 5 0 10 = [0, 2] ∧
     nfS3.owner_of 1 = some 9 ∧ nfS3.balance_of 9 = 1) := by
  constructor
  · by_cases hri : count_val - 1 = remove_index
    · rw [remove_token_eq_last st from_acc token_id last_token_id count_val hc
        hpos (by rw [hri]; exact hidx) hlast]
      refine ⟨rfl, ?_, ?_, fun hh => absurd hri hh, ?_⟩
      · show ((st.owned_count.insert from_acc (count_val - 1)).get
          from_acc).getD 0 = count_val - 1
        rw [Mapping.get_insert, if_pos rfl]
        rfl
      · rw [Mapping.get_remove, if_pos rfl]
      · rw [Mapping.get_remove, if_pos rfl]
    · have hlt_t : last_token_id ≠ token_id := hmoved hri
      rw [remove_token_eq_swap st from_acc token_id remove_index last_token_id
        count_val hc hpos hidx hlast hri]
      refine ⟨rfl, ?_, ?_, fun _ => ⟨?_, ?_⟩, ?_⟩
      · show ((st.owned_count.insert from_acc (count_val - 1)).get
          from_acc).getD 0 = count_val - 1
        rw [Mapping.get_insert, if_pos rfl]
        rfl
      · rw [Mapping.get_remove, if_pos rfl]
      · rw [Mapping.get_remove, if_neg (by simp; omega), Mapping.get_insert,
          if_pos rfl]
      · rw [Mapping.get_remove, if_neg hlt_t, Mapping.get_insert, if_pos rfl]
      · rw [Mapping.get_remove, if_pos rfl]
  · exact ⟨by decide, by decide, by decide, by decide⟩

/-- C7 witness: removing token 1 from owner 5 holding slots `[0, 1, 2]`. -/
theorem c7_swap_remove_semantics_witness :
    (nfS2.balance_of 5 = 3 ∧ 0 < 3 ∧
     nfS2.owned_index.get 1 = some 1 ∧
     nfS2.tokens_by_owner.get (5, 3 - 1) = some 2 ∧
     (3 - 1 ≠ 1 → (2 : Nat) ≠ 1)) ∧
    ((NFMoo.remove_token_from_owner nfS2 5 1).1 = none ∧
     (NFMoo.remove_token_from_owner nfS2 5 1).2.balance_of 5 = 3 - 1 ∧
     (NFMoo.remove_token_from_owner nfS2 5 1).2.tokens_by_owner.get
       (5, 3 - 1) = none ∧
     (3 - 1 ≠ 1 →
       (NFMoo.remove_token_from_owner nfS2 5 1).2.tokens_by_owner.get
         (5, 1) = some 2 ∧
       (NFMoo.remove_token_from_owner nfS2 5 1).2.owned_index.get 2 =
         some 1) ∧
     (NFMoo.remove_token_from_owner nfS2 5 1).2.owned_index.get 1 = none) ∧
    (nfS3.balance_of 5 = 2 ∧ nfS3.tokens_of 5 0 10 = [0, 2] ∧
     nfS3.owner_of 1 = some 9 ∧ nfS3.balance_of 9 = 1) :=
  ⟨⟨by decide, by decide, by decide, by decide, fun _ => by decide⟩,
    c7_swap_remove_semantics nfS2 5 1 3 1 2 (by decide) (by decide)
      (by decide) (by decide) (fun _ => by decide)⟩

theorem allowance_insert (st : Moo) (k : Nat × Nat) (v : Nat) (o s : Nat) :
    Moo.allowance { st with allowances := st.allowances.insert k v } o s =
      if (o, s) = k then v else st.allowance o s := by
  show ((st.allowances.insert k v).get (o, s)).getD 0 = _
  rw [Mapping.get_insert]
  split <;> rfl

/-- C5 counterexample: on a paused ledger, `approve` with amount zero fails
with `Paused`, refuting that setting the amount to zero always succeeds and
that `AllowanceRace` is the only failure. -/
theorem c5_counterexample_paused_approve :
    mooPaused.allowance 1 2 = 0 ∧
    (Moo.exec mooPaused (.approve 1 2 0)).1 = some .Paused ∧
    (Moo.exec mooPaused (.approve 1 2 0)).1 ≠ none ∧
    (Moo.exec mooPaused (.approve 1 2 0)).1 ≠ some .AllowanceRace := by
  decide

/-- C5 amended: on an unpaused ledger, `approve` fails `AllowanceRace`
exactly when the current allowance and the new amount are both non-zero;
otherwise it overwrites the allowance, and a zero amount always succeeds.
Zero-then-nonzero succeeds; a second non-zero approve after a non-zero
approve fails `AllowanceRace`. -/
theorem c5_amended_safe_approve (st : Moo) (hp : st.paused_flag = false)
    (caller_acc spender_acc amount_val : Nat) :
    ((Moo.exec st (.approve caller_acc spender_acc amount_val)).1 =
        some .AllowanceRace ↔
      (st.allowance caller_acc spender_acc ≠ 0 ∧ amount_val ≠ 0)) ∧
    (st.allowance caller_acc spender_acc = 0 ∨ amount_val = 0 →
      Moo.exec st (.approve caller_acc spender_acc amount_val) = (none,
        { st with allowances := Mapping.insert st.allowances (caller_acc, spender_acc) amount_val })) ∧
    ((Moo.exec st (.approve caller_acc spender_acc 0)).1 = none) ∧
    ((Moo.exec (Moo.exec st (.approve caller_acc spender_acc 0)).2
        (.approve caller_acc spender_acc 5)).1 = none) ∧
    ((Moo.exec (Moo.exec st (.approve caller_acc spender_acc 5)).2
        (.approve caller_acc spender_acc 7)).1 = some .AllowanceRace) := by
  have hexec : ∀ (s : Moo) (sp am : Nat), s.paused_flag = false →
      Moo.exec s (.approve caller_acc sp am) =
      (if s.allowance caller_acc sp ≠ 0 ∧ am ≠ 0 then (some .AllowanceRace, s)
       else (none, { s with allowances := Mapping.insert s.allowances (caller_acc, sp) am })) := by
    intro s sp am hps
    simp only [Moo.exec, Moo.approve, hps, Bool.false_eq_true, if_false]
  refine ⟨?_, ?_, ?_, ?_, ?_⟩
  · rw [hexec st spender_acc amount_val hp]
    by_cases hcond : st.allowance caller_acc spender_acc ≠ 0 ∧ amount_val ≠ 0
    · rw [if_pos hcond]
      simp [hcond]
    · rw [if_neg hcond]
      simp [hcond]
  · intro hz
    rw [hexec st spender_acc amount_val hp, if_neg (by
      rcases hz with hz | hz <;> simp [hz])]
  · rw [hexec st spender_acc 0 hp, if_neg (by simp)]
  · rw [hexec st spender_acc 0 hp, if_neg (by simp)]
    simp only []
    rw [hexec { st with allowances := Mapping.insert st.allowances (caller_acc, spender_acc) 0 }
      spender_acc 5 hp, if_neg (by
        rw [allowance_insert, if_pos rfl]
        simp)]
  · rw [hexec st spender_acc 5 hp]
    by_cases hcond : st.allowance caller_acc spender_acc ≠ 0 ∧ (5 : Nat) ≠ 0
    · rw [if_pos hcond]
      simp only []
      rw [hexec st spender_acc 7 hp, if_pos ⟨hcond.1, by simp⟩]
    · rw [if_neg hcond]
      simp only []
      rw [hexec { st with allowances := Mapping.insert st.allowances (caller_acc, spender_acc) 5 }
        spender_acc 7 hp, if_pos ⟨by
          rw [allowance_insert, if_pos rfl]
          simp, by simp⟩]

/-- C5 witness: the amended approve semantics at a concrete state. -/
theorem c5_amended_safe_approve_witness :
    (Moo.new 0).paused_flag = false ∧
    (((Moo.exec (Moo.new 0) (.approve 1 2 5)).1 = some .AllowanceRace ↔
      ((Moo.new 0).allowance 1 2 ≠ 0 ∧ (5 : Nat) ≠ 0)) ∧
    ((Moo.new 0).allowance 1 2 = 0 ∨ (5 : Nat) = 0 →
      Moo.exec (Moo.new 0) (.approve 1 2 5) = (none,
        { (Moo.new 0) with
          allowances := (Moo.new 0).allowances.insert (1, 2) 5 })) ∧
    ((Moo.exec (Moo.new 0) (.approve 1 2 0)).1 = none) ∧
    ((Moo.exec (Moo.exec (Moo.new 0) (.approve 1 2 0)).2
        (.approve 1 2 5)).1 = none) ∧
    ((Moo.exec (Moo.exec (Moo.new 0) (.approve 1 2 5)).2
        (.approve 1 2 7)).1 = some .AllowanceRace)) :=
  ⟨rfl, c5_amended_safe_approve (Moo.new 0) rfl 1 2 5⟩

/-- C6 counterexample: on a paused ledger, `mint` with amount zero fails
with `Paused`, not `AmountZero`. -/
theorem c6_counterexample_paused_mint :
    (Moo.exec mooPaused (.mint 1 0)).1 = some .Paused ∧
    (Moo.exec mooPaused (.mint 1 0)).1 ≠ some .AmountZero := by
  decide

/-- C6 amended: on an unpaused ledger, `mint` fails `AmountZero` when the
amount is zero, fails `Unauthorized` when the caller is not a minter, and
otherwise increases the total supply and the caller balance by exactly the
amount via checked additions, failing `Overflow` on overflow. -/
theorem c6_amended_mint (st : Moo) (hp : st.paused_flag = false)
    (caller_acc amount_val : Nat) :
    (amount_val = 0 →
      Moo.exec st (.mint caller_acc amount_val) = (some .AmountZero, st)) ∧
    (amount_val ≠ 0 → (st.is_minter.get caller_acc).getD false = false →
      Moo.exec st (.mint caller_acc amount_val) = (some .Unauthorized, st)) ∧
    (amount_val ≠ 0 → (st.is_minter.get caller_acc).getD false = true →
      st.total_supply + amount_val < 2 ^ 128 →
      st.balance_of caller_acc + amount_val < 2 ^ 128 →
      (Moo.exec st (.mint caller_acc amount_val)).1 = none ∧
      (Moo.exec st (.mint caller_acc amount_val)).2.total_supply =
        st.total_supply + amount_val ∧
      (Moo.exec st (.mint caller_acc amount_val)).2.balance_of caller_acc =
        st.balance_of caller_acc + amount_val) ∧
    (amount_val ≠ 0 → (st.is_minter.get caller_acc).getD false = true →
      (2 ^ 128 ≤ st.total_supply + amount_val ∨
        2 ^ 128 ≤ st.balance_of caller_acc + amount_val) →
      (Moo.exec st (.mint caller_acc amount_val)).1 = some .Overflow) := by
  have hp2 : ¬ (st.paused_flag = true) := by
    rw [hp]
    exact Bool.false_ne_true
  refine ⟨?_, ?_, ?_, ?_⟩
  · intro ha
    simp only [Moo.exec, Moo.mint]
    rw [if_neg hp2, if_pos ha]
  · intro ha hm
    simp only [Moo.exec, Moo.mint]
    rw [if_neg hp2, if_neg ha, if_pos (by rw [hm]; exact Bool.false_ne_true)]
  · intro ha hm ht hb
    simp only [Moo.exec, Moo.mint, Moo.mint_internal]
    rw [if_neg hp2, if_neg ha, if_neg (fun hh => hh hm)]
    rw [show checked_add128 st.total_supply amount_val =
        some (st.total_supply + amount_val) from by
      unfold checked_add128; rw [if_pos ht]]
    simp only []
    rw [show Moo.balance_of { st with total_supply :=
        st.total_supply + amount_val } caller_acc =
      st.balance_of caller_acc from rfl]
    rw [show checked_add128 (st.balance_of caller_acc) amount_val =
        some (st.balance_of caller_acc + amount_val) from by
      unfold checked_add128; rw [if_pos hb]]
    simp only []
    refine ⟨by trivial, by trivial, ?_⟩
    show ((st.balances.insert caller_acc
      (st.balance_of caller_acc + amount_val)).get caller_acc).getD 0 = _
    rw [Mapping.get_insert, if_pos rfl]
    rfl
  · intro ha hm hover
    simp only [Moo.exec, Moo.mint, Moo.mint_internal]
    rw [if_neg hp2, if_neg ha, if_neg (fun hh => hh hm)]
    by_cases ht : st.total_supply + amount_val < 2 ^ 128
    · rw [show checked_add128 st.total_supply amount_val =
          some (st.total_supply + amount_val) from by
        unfold checked_add128; rw [if_pos ht]]
      simp only []
      rw [show Moo.balance_of { st with total_supply :=
          st.total_supply + amount_val } caller_acc =
        st.balance_of caller_acc from rfl]
      rw [show checked_add128 (st.balance_of caller_acc) amount_val = none from by
        unfold checked_add128
        rw [if_neg (by omega)]]
    · rw [show checked_add128 st.total_supply amount_val = none from by
        unfold checked_add128; rw [if_neg ht]]

/-- C6 witness: a successful authorized mint at a concrete state. -/
theorem c6_amended_mint_witness :
    mooS1.paused_flag = false ∧
    ((100 : Nat) ≠ 0 ∧ (mooS1.is_minter.get 5).getD false = true) ∧
    ((Moo.exec mooS1 (.mint 5 100)).1 = none ∧
     (Moo.exec mooS1 (.mint 5 100)).2.total_supply =
       mooS1.total_supply + 100 ∧
     (Moo.exec mooS1 (.mint 5 100)).2.balance_of 5 =
       mooS1.balance_of 5 + 100) :=
  ⟨by decide, ⟨by decide, by decide⟩,
    (c6_amended_mint mooS1 (by decide) 5 100).2.2.1 (by decide) (by decide)
      (by decide) (by decide)⟩

/-- C4 counterexample: on a paused ledger, `transfer_from` with the source
balance below the amount fails with `Paused`, not `InsufficientBalance`. -/
theorem c4_counterexample_paused_transfer_from :
    mooPaused.balance_of 1 < 5 ∧ (5 : Nat) ≠ 0 ∧ (1 : Nat) ≠ 2 ∧
    (Moo.exec mooPaused (.transfer_from 3 1 2 5)).1 = some .Paused ∧
    (Moo.exec mooPaused (.transfer_from 3 1 2 5)).1 ≠
      some .InsufficientBalance := by
  decide

/-- C4 amended: on an unpaused reachable ledger state, `transfer_from` with
a non-zero amount and distinct accounts checks the source balance first
(failing `InsufficientBalance` with nothing written), then the allowance
(failing `InsufficientAllowance` with nothing written), and otherwise moves
the balance and persists the allowance decremented by exactly the amount,
even when it drops to zero. -/
theorem c4_amended_transfer_from (st : Moo) (h : MooReachable st)
    (hp : st.paused_flag = false) (caller_acc from_acc to_acc amount_val : Nat)
    (ha : amount_val ≠ 0) (hne : from_acc ≠ to_acc) :
    (st.balance_of from_acc < amount_val →
      Moo.exec st (.transfer_from caller_acc from_acc to_acc amount_val) =
        (some .InsufficientBalance, st)) ∧
    (amount_val ≤ st.balance_of from_acc →
      st.allowance from_acc caller_acc < amount_val →
      Moo.exec st (.transfer_from caller_acc from_acc to_acc amount_val) =
        (some .InsufficientAllowance, st)) ∧
    (amount_val ≤ st.balance_of from_acc →
      amount_val ≤ st.allowance from_acc caller_acc →
      (Moo.exec st (.transfer_from caller_acc from_acc to_acc amount_val)).1 =
        none ∧
      (Moo.exec st (.transfer_from caller_acc from_acc to_acc
        amount_val)).2.balance_of from_acc =
          st.balance_of from_acc - amount_val ∧
      (Moo.exec st (.transfer_from caller_acc from_acc to_acc
        amount_val)).2.balance_of to_acc =
          st.balance_of to_acc + amount_val ∧
      (Moo.exec st (.transfer_from caller_acc from_acc to_acc
        amount_val)).2.allowances.get (from_acc, caller_acc) =
          some (st.allowance from_acc caller_acc - amount_val)) := by
  have hp2 : ¬ (st.paused_flag = true) := by
    rw [hp]
    exact Bool.false_ne_true
  refine ⟨?_, ?_, ?_⟩
  · intro hlt
    simp only [Moo.exec, Moo.transfer_from]
    rw [if_neg hp2, if_neg ha, if_neg hne, if_pos hlt]
  · intro hge hallow
    simp only [Moo.exec, Moo.transfer_from]
    rw [if_neg hp2, if_neg ha, if_neg hne, if_neg (not_lt.mpr hge),
      if_pos hallow]
  · intro hge hallow
    obtain hinv := mooReachable_inv h
    have hpair := hinv.pair_le_total from_acc to_acc hne
    have hbound := hinv.1
    simp only [Moo.exec, Moo.transfer_from]
    rw [if_neg hp2, if_neg ha, if_neg hne, if_neg (not_lt.mpr hge),
      if_neg (not_lt.mpr hallow)]
    rw [show checked_sub (st.balance_of from_acc) amount_val =
        some (st.balance_of from_acc - amount_val) from by
      unfold checked_sub; rw [if_pos hge]]
    simp only []
    rw [show checked_add128 (st.balance_of to_acc) amount_val =
        some (st.balance_of to_acc + amount_val) from by
      unfold checked_add128; rw [if_pos (by omega)]]
    simp only []
    refine ⟨by trivial, ?_, ?_, ?_⟩
    · show ((((st.balances.insert from_acc
        (st.balance_of from_acc - amount_val)).insert to_acc
        (st.balance_of to_acc + amount_val))).get from_acc).getD 0 = _
      rw [Mapping.get_insert, if_neg hne, Mapping.get_insert, if_pos rfl]
      rfl
    · show ((((st.balances.insert from_acc
        (st.balance_of from_acc - amount_val)).insert to_acc
        (st.balance_of to_acc + amount_val))).get to_acc).getD 0 = _
      rw [Mapping.get_insert, if_pos rfl]
      rfl
    · show ((st.allowances.insert (from_acc, caller_acc)
        (st.allowance from_acc caller_acc - amount_val)).get
          (from_acc, caller_acc)) = _
      rw [Mapping.get_insert, if_pos rfl]

theorem mooS3_reachable : MooReachable mooS3 :=
  MooReachable.step mooS2 (MooCall.approve 5 7 30) mooS2_reachable (by decide)

/-- C4 witness: spender 7 moves 30 units from 5 to 9, consuming the whole
allowance. -/
theorem c4_amended_transfer_from_witness :
    MooReachable mooS3 ∧ mooS3.paused_flag = false ∧ (30 : Nat) ≠ 0 ∧
    (5 : Nat) ≠ 9 ∧ 30 ≤ mooS3.balance_of 5 ∧ 30 ≤ mooS3.allowance 5 7 ∧
    ((Moo.exec mooS3 (.transfer_from 7 5 9 30)).1 = none ∧
     (Moo.exec mooS3 (.transfer_from 7 5 9 30)).2.balance_of 5 =
       mooS3.balance_of 5 - 30 ∧
     (Moo.exec mooS3 (.transfer_from 7 5 9 30)).2.balance_of 9 =
       mooS3.balance_of 9 + 30 ∧
     (Moo.exec mooS3 (.transfer_from 7 5 9 30)).2.allowances.get (5, 7) =
       some (mooS3.allowance 5 7 - 30)) :=
  ⟨mooS3_reachable, by decide, by decide, by decide, by decide, by decide,
    (c4_amended_transfer_from mooS3 mooS3_reachable (by decide) 7 5 9 30
      (by decide) (by decide)).2.2 (by decide) (by decide)⟩

/-- C3 counterexample: a failing `mint_n` call commits the writes of its
earlier completed iterations: with max supply 1, `mint_n 2` fails with
`Overflow` yet leaves one minted token behind, so the post-state differs
from the pre-state. -/
theorem c3_counterexample_partial_mint :
    (NFMoo.exec nfCap (.mint_n 5 2)).1 = some .Overflow ∧
    (NFMoo.exec nfCap (.mint_n 5 2)).2.supply_cnt = 1 ∧
    nfCap.supply_cnt = 0 ∧
    (NFMoo.exec nfCap (.mint_n 5 2)).2.owner_by_id.get 0 = some 5 ∧
    (NFMoo.exec nfCap (.mint_n 5 2)).2 ≠ nfCap := by
  refine ⟨by decide, by decide, by decide, by decide, ?_⟩
  intro hh
  have hsup := congrArg NFMoo.supply_cnt hh
  have h1 : (NFMoo.exec nfCap (.mint_n 5 2)).2.supply_cnt = 1 := by decide
  have h2 : nfCap.supply_cnt = 0 := by decide
  rw [h1, h2] at hsup
  exact absurd hsup (by decide)

/-- C3 amended: a failing ledger call always returns the unchanged
pre-state; a failing registry call either returns the unchanged pre-state or
is an `Overflow` failure of `mint_n` or `transfer`, the only operations that
write before a late overflow check (for reachable pre-states). -/
theorem c3_amended_failure_atomicity :
    (∀ (st : Moo) (c : MooCall), MooReachable st →
      (Moo.exec st c).1 ≠ none → (Moo.exec st c).2 = st) ∧
    (∀ (st : NFMoo) (c : NFCall), NFReachable st →
      (NFMoo.exec st c).1 ≠ none →
      ((NFMoo.exec st c).2 = st ∨
        ((NFMoo.exec st c).1 = some .Overflow ∧
          ((∃ a n, c = NFCall.mint_n a n) ∨
            (∃ a b i, c = NFCall.transfer a b i))))) := by
  constructor
  · intro st c hr hne
    rcases moo_exec_cases st c (mooReachable_inv hr) with he | ⟨hs, -⟩
    · exact he
    · exact absurd hs hne
  · intro st c hr hne
    exact (nf_exec_cases st c (nfReachable_inv hr)).2 hne

/-- C3 witness: a failing ledger transfer and a failing registry burn both
leave the state unchanged. -/
theorem c3_amended_failure_atomicity_witness :
    MooReachable (Moo.new 0) ∧
    (Moo.exec (Moo.new 0) (.transfer 1 2 0)).1 ≠ none ∧
    (Moo.exec (Moo.new 0) (.transfer 1 2 0)).2 = Moo.new 0 ∧
    NFReachable (NFMoo.new 0 none) ∧
    (NFMoo.exec (NFMoo.new 0 none) (.burn 1 0)).1 ≠ none ∧
    ((NFMoo.exec (NFMoo.new 0 none) (.burn 1 0)).2 = NFMoo.new 0 none ∨
      ((NFMoo.exec (NFMoo.new 0 none) (.burn 1 0)).1 = some .Overflow ∧
        ((∃ a n, (NFCall.burn 1 0) = NFCall.mint_n a n) ∨
          (∃ a b i, (NFCall.burn 1 0) = NFCall.transfer a b i)))) :=
  ⟨MooReachable.init 0, by decide,
    c3_amended_failure_atomicity.1 (Moo.new 0) (.transfer 1 2 0)
      (MooReachable.init 0) (by decide),
    NFReachable.init 0 none, by decide,
    c3_amended_failure_atomicity.2 (NFMoo.new 0 none) (.burn 1 0)
      (NFReachable.init 0 none) (by decide)⟩

/-- Explicit post-state of one successful mint body. -/
theorem mint_body_ok (st : NFMoo) (caller : Nat)
    (hnid : st.next_id + 1 < 2 ^ 128)
    (hfit : st.balance_of caller + 1 < 2 ^ 32)
    (hsup : st.supply_cnt + 1 < 2 ^ 128) :
    NFMoo.mint_body st caller = (none,
      { st with
        next_id := st.next_id + 1
        owner_by_id := st.owner_by_id.insert st.next_id caller
        tokens_by_owner := st.tokens_by_owner.insert
          (caller, st.balance_of caller) st.next_id
        owned_index := st.owned_index.insert st.next_id (st.balance_of caller)
        owned_count := st.owned_count.insert caller (st.balance_of caller + 1)
        supply_cnt := st.supply_cnt + 1 }) := by
  simp only [NFMoo.mint_body]
  rw [show checked_add128 st.next_id 1 = some (st.next_id + 1) from by
    unfold checked_add128; rw [if_pos hnid]]
  simp only []
  rw [add_token_eq { st with next_id := st.next_id + 1, owner_by_id := st.owner_by_id.insert st.next_id caller }
    caller st.next_id (st.balance_of caller) rfl hfit]
  simp only []
  rw [show checked_add128 st.supply_cnt 1 = some (st.supply_cnt + 1) from by
    unfold checked_add128; rw [if_pos hsup]]

/-- A successful loop iteration below the supply cap. -/
theorem mint_one_ok (st : NFMoo) (caller : Nat)
    (hcap : ∀ m, st.max_supply_opt = some m → st.supply_cnt < m)
    (hnid : st.next_id + 1 < 2 ^ 128)
    (hfit : st.balance_of caller + 1 < 2 ^ 32)
    (hsup : st.supply_cnt + 1 < 2 ^ 128) :
    NFMoo.mint_one st caller = (none,
      { st with
        next_id := st.next_id + 1
        owner_by_id := st.owner_by_id.insert st.next_id caller
        tokens_by_owner := st.tokens_by_owner.insert
          (caller, st.balance_of caller) st.next_id
        owned_index := st.owned_index.insert st.next_id (st.balance_of caller)
        owned_count := st.owned_count.insert caller (st.balance_of caller + 1)
        supply_cnt := st.supply_cnt + 1 }) := by
  rcases hmax : st.max_supply_opt with - | m
  · simp only [NFMoo.mint_one, hmax]
    rw [← hmax]
    exact mint_body_ok st caller hnid hfit hsup
  · simp only [NFMoo.mint_one, hmax]
    rw [if_neg (by have := hcap m hmax; omega), ← hmax]
    exact mint_body_ok st caller hnid hfit hsup

/-- A loop iteration at the supply cap fails immediately. -/
theorem mint_one_cap (st : NFMoo) (caller m : Nat)
    (hmax : st.max_supply_opt = some m) (hcap : m ≤ st.supply_cnt) :
    NFMoo.mint_one st caller = (some .Overflow, st) := by
  simp only [NFMoo.mint_one, hmax]
  rw [if_pos hcap]

/-- Mint loop, success case: all `n` items are minted with sequential ids
assigned to the caller, and the supply rises by `n`. -/
theorem mint_loop_ok (caller : Nat) : ∀ (n : Nat) (st : NFMoo),
    (∀ m, st.max_supply_opt = some m → st.supply_cnt + n ≤ m) →
    st.next_id + n < 2 ^ 128 →
    st.balance_of caller + n < 2 ^ 32 →
    st.supply_cnt + n < 2 ^ 128 →
    (NFMoo.mint_loop st caller n).1 = none ∧
    (NFMoo.mint_loop st caller n).2.supply_cnt = st.supply_cnt + n ∧
    (∀ t, (NFMoo.mint_loop st caller n).2.owner_by_id.get t =
      if st.next_id ≤ t ∧ t < st.next_id + n then some caller
      else st.owner_by_id.get t) := by
  intro n
  induction n with
  | zero =>
    intro st hcap hnid hfit hsup
    refine ⟨rfl, ?_, fun t => ?_⟩
    · show st.supply_cnt = st.supply_cnt + 0
      omega
    · rw [if_neg (by omega)]
      rfl
  | succ n ih =>
    intro st hcap hnid hfit hsup
    simp only [NFMoo.mint_loop]
    rw [mint_one_ok st caller
      (fun m hm => by have := hcap m hm; omega) (by omega) (by omega)
      (by omega)]
    simp only []
    set stn : NFMoo :=
      { st with
        next_id := st.next_id + 1
        owner_by_id := st.owner_by_id.insert st.next_id caller
        tokens_by_owner := st.tokens_by_owner.insert
          (caller, st.balance_of caller) st.next_id
        owned_index := st.owned_index.insert st.next_id (st.balance_of caller)
        owned_count := st.owned_count.insert caller (st.balance_of caller + 1)
        supply_cnt := st.supply_cnt + 1 } with hstn
    have hsup_n : stn.supply_cnt = st.supply_cnt + 1 := rfl
    have hnext_n : stn.next_id = st.next_id + 1 := rfl
    have hmax_n : stn.max_supply_opt = st.max_supply_opt := rfl
    have howner_n : stn.owner_by_id = st.owner_by_id.insert st.next_id caller :=
      rfl
    have hbal_n : stn.balance_of caller = st.balance_of caller + 1 := by
      show ((st.owned_count.insert caller (st.balance_of caller + 1)).get
        caller).getD 0 = _
      rw [Mapping.get_insert, if_pos rfl]
      rfl
    obtain ⟨h1, h2, h3⟩ := ih stn
      (fun m hm => by
        rw [hmax_n] at hm
        have := hcap m hm
        rw [hsup_n]
        omega)
      (by rw [hnext_n]; omega)
      (by rw [hbal_n]; omega)
      (by rw [hsup_n]; omega)
    refine ⟨h1, ?_, fun t => ?_⟩
    · rw [h2, hsup_n]
      omega
    · rw [h3 t, hnext_n, howner_n]
      by_cases hA : st.next_id + 1 ≤ t ∧ t < st.next_id + 1 + n
      · rw [if_pos hA, if_pos (show st.next_id ≤ t ∧
          t < st.next_id + (n + 1) by omega)]
      · rw [if_neg hA, Mapping.get_insert]
        by_cases ht0 : t = st.next_id
        · rw [if_pos ht0, if_pos (show st.next_id ≤ t ∧
            t < st.next_id + (n + 1) by omega)]
        · rw [if_neg ht0, if_neg (show ¬ (st.next_id ≤ t ∧
            t < st.next_id + (n + 1)) by omega)]

/-- Mint loop, capped case: the first `max - supply` iterations mint items
with sequential ids, then the supply-cap check fails with `Overflow`,
keeping the earlier items. -/
theorem mint_loop_cap (caller : Nat) : ∀ (n : Nat) (st : NFMoo) (m : Nat),
    st.max_supply_opt = some m → st.supply_cnt ≤ m →
    m < st.supply_cnt + n →
    st.next_id + n < 2 ^ 128 →
    st.balance_of caller + n < 2 ^ 32 →
    m < 2 ^ 128 →
    (NFMoo.mint_loop st caller n).1 = some .Overflow ∧
    (NFMoo.mint_loop st caller n).2.supply_cnt = m ∧
    (∀ t, (NFMoo.mint_loop st caller n).2.owner_by_id.get t =
      if st.next_id ≤ t ∧ t < st.next_id + (m - st.supply_cnt)
      then some caller else st.owner_by_id.get t) := by
  intro n
  induction n with
  | zero =>
    intro st m hmax hle hlt hnid hfit hm128
    omega
  | succ n ih =>
    intro st m hmax hle hlt hnid hfit hm128
    by_cases hstop : m ≤ st.supply_cnt
    · have heq : st.supply_cnt = m := by omega
      simp only [NFMoo.mint_loop]
      rw [mint_one_cap st caller m hmax hstop]
      simp only []
      refine ⟨by trivial, heq, fun t => ?_⟩
      rw [if_neg (by omega)]
    · have hslt : st.supply_cnt < m := by omega
      simp only [NFMoo.mint_loop]
      rw [mint_one_ok st caller
        (fun m2 hm2 => by rw [hmax] at hm2; cases hm2; omega)
        (by omega) (by omega) (by omega)]
      simp only []
      set stn : NFMoo :=
        { st with
          next_id := st.next_id + 1
          owner_by_id := st.owner_by_id.insert st.next_id caller
          tokens_by_owner := st.tokens_by_owner.insert
            (caller, st.balance_of caller) st.next_id
          owned_index := st.owned_index.insert st.next_id
            (st.balance_of caller)
          owned_count := st.owned_count.insert caller
            (st.balance_of caller + 1)
          supply_cnt := st.supply_cnt + 1 } with hstn
      have hsup_n : stn.supply_cnt = st.supply_cnt + 1 := rfl
      have hnext_n : stn.next_id = st.next_id + 1 := rfl
      have hmax_n : stn.max_supply_opt = st.max_supply_opt := rfl
      have howner_n : stn.owner_by_id =
          st.owner_by_id.insert st.next_id caller := rfl
      have hbal_n : stn.balance_of caller = st.balance_of caller + 1 := by
        show ((st.owned_count.insert caller (st.balance_of caller + 1)).get
          caller).getD 0 = _
        rw [Mapping.get_insert, if_pos rfl]
        rfl
      obtain ⟨h1, h2, h3⟩ := ih stn m (by rw [hmax_n]; exact hmax)
        (by rw [hsup_n]; omega)
        (by rw [hsup_n]; omega)
        (by rw [hnext_n]; omega)
        (by rw [hbal_n]; omega)
        hm128
      refine ⟨h1, by rw [h2], fun t => ?_⟩
      rw [h3 t, hnext_n, howner_n, hsup_n]
      by_cases hA : st.next_id + 1 ≤ t ∧
          t < st.next_id + 1 + (m - (st.supply_cnt + 1))
      · rw [if_pos hA, if_pos (show st.next_id ≤ t ∧
          t < st.next_id + (m - st.supply_cnt) by omega)]
      · rw [if_neg hA, Mapping.get_insert]
        by_cases ht0 : t = st.next_id
        · rw [if_pos ht0, if_pos (show st.next_id ≤ t ∧
            t < st.next_id + (m - st.supply_cnt) by omega)]
        · rw [if_neg ht0, if_neg (show ¬ (st.next_id ≤ t ∧
            t < st.next_id + (m - st.supply_cnt)) by omega)]
/-- C8: for `mint_n` by an authorized minter on an unpaused registry
(with a non-zero amount and all counters in machine range): a count over
the 200 per-call ceiling fails `Overflow` leaving the state unchanged;
a count that fits under the configured maximum supply mints all items
with sequential ids owned by the caller, raising the supply by the count;
and a count crossing the maximum supply fails `Overflow` at the first
iteration over the cap, with the supply stopping exactly at the maximum
and all items of the earlier iterations remaining minted. -/
theorem c8_mint_n_batch (st : NFMoo) (caller amount : Nat)
    (hp : st.paused_flag = false)
    (hmint : (st.is_minter.get caller).getD false = true)
    (hnz : amount ≠ 0)
    (hnid : st.next_id + amount < 2 ^ 128)
    (hfit : st.balance_of caller + amount < 2 ^ 32)
    (hsup : st.supply_cnt + amount < 2 ^ 128) :
    (amount > 200 →
      NFMoo.mint_n st caller amount = (some .Overflow, st)) ∧
    (amount ≤ 200 →
      (∀ m, st.max_supply_opt = some m → st.supply_cnt + amount ≤ m) →
      (NFMoo.mint_n st caller amount).1 = none ∧
      (NFMoo.mint_n st caller amount).2.supply_cnt =
        st.supply_cnt + amount ∧
      (∀ t, st.next_id ≤ t → t < st.next_id + amount →
        (NFMoo.mint_n st caller amount).2.owner_by_id.get t =
          some caller)) ∧
    (∀ m, amount ≤ 200 → st.max_supply_opt = some m →
      st.supply_cnt ≤ m → m < st.supply_cnt + amount →
      (NFMoo.mint_n st caller amount).1 = some .Overflow ∧
      (NFMoo.mint_n st caller amount).2.supply_cnt = m ∧
      (∀ t, st.next_id ≤ t → t < st.next_id + (m - st.supply_cnt) →
        (NFMoo.mint_n st caller amount).2.owner_by_id.get t =
          some caller)) := by
  have hpneg : ¬ (st.paused_flag = true) := by
    rw [hp]
    exact Bool.false_ne_true
  have hmneg : ¬ ¬ ((st.is_minter.get caller).getD false = true) :=
    not_not_intro hmint
  refine ⟨fun hgt => ?_, fun hle hcap => ?_, fun m hle hmax hmle hmlt => ?_⟩
  · simp only [NFMoo.mint_n]
    rw [if_neg hpneg, if_neg hnz, if_neg hmneg, if_pos hgt]
  · have hmn : NFMoo.mint_n st caller amount =
        NFMoo.mint_loop st caller amount := by
      simp only [NFMoo.mint_n]
      rw [if_neg hpneg, if_neg hnz, if_neg hmneg,
        if_neg (show ¬ amount > 200 by omega)]
    obtain ⟨h1, h2, h3⟩ := mint_loop_ok caller amount st hcap hnid hfit hsup
    rw [hmn]
    exact ⟨h1, h2, fun t ht1 ht2 => by rw [h3 t, if_pos ⟨ht1, ht2⟩]⟩
  · have hmn : NFMoo.mint_n st caller amount =
        NFMoo.mint_loop st caller amount := by
      simp only [NFMoo.mint_n]
      rw [if_neg hpneg, if_neg hnz, if_neg hmneg,
        if_neg (show ¬ amount > 200 by omega)]
    obtain ⟨h1, h2, h3⟩ := mint_loop_cap caller amount st m hmax hmle hmlt
      hnid hfit (by omega)
    rw [hmn]
    exact ⟨h1, h2, fun t ht1 ht2 => by rw [h3 t, if_pos ⟨ht1, ht2⟩]⟩

/-- C8 witness: with max supply 2 and tokens 0 and 1 already minted,
a further `mint_n` of one item fails with `Overflow` and the supply
stays at 2. -/
theorem c8_mint_n_batch_witness :
    (NFMoo.mint_n nfM2 5 1).1 = some .Overflow ∧
    (NFMoo.mint_n nfM2 5 1).2.supply_cnt = 2 := by
  obtain ⟨-, -, h3⟩ := c8_mint_n_batch nfM2 5 1 (by decide) (by decide)
    (by decide) (by decide) (by decide) (by decide)
  obtain ⟨ha, hb, -⟩ := h3 2 (by decide) (by decide) (by decide) (by decide)
  exact ⟨ha, hb⟩
/-- C10: a successful registry `transfer` changes only the transferred
token's owner record, its single-token approval (which is cleared), and
the sending and receiving owners' counts and dense/reverse index entries;
the supply counter, the next token id, the pause flag, the registry owner,
the minter set, all operator approvals, every other token's approval and
owner record, every other account's count and slot array, and the reverse
index of every other token not owned by the sender are unchanged. -/
theorem c10_transfer_frame (st : NFMoo) (caller to_acc token_id : Nat)
    (hreach : NFReachable st)
    (hok : (NFMoo.transfer st caller to_acc token_id).1 = none) :
    ∃ from_acc, st.owner_by_id.get token_id = some from_acc ∧
      (NFMoo.transfer st caller to_acc token_id).2.supply_cnt =
        st.supply_cnt ∧
      (NFMoo.transfer st caller to_acc token_id).2.next_id = st.next_id ∧
      (NFMoo.transfer st caller to_acc token_id).2.paused_flag =
        st.paused_flag ∧
      (NFMoo.transfer st caller to_acc token_id).2.owner_acc =
        st.owner_acc ∧
      (NFMoo.transfer st caller to_acc token_id).2.max_supply_opt =
        st.max_supply_opt ∧
      (NFMoo.transfer st caller to_acc token_id).2.is_minter =
        st.is_minter ∧
      (NFMoo.transfer st caller to_acc token_id).2.operator_approval =
        st.operator_approval ∧
      (NFMoo.transfer st caller to_acc token_id).2.token_approval.get
        token_id = none ∧
      (∀ t, t ≠ token_id →
        (NFMoo.transfer st caller to_acc token_id).2.token_approval.get t =
          st.token_approval.get t) ∧
      (NFMoo.transfer st caller to_acc token_id).2.owner_by_id.get
        token_id = some to_acc ∧
      (∀ t, t ≠ token_id →
        (NFMoo.transfer st caller to_acc token_id).2.owner_by_id.get t =
          st.owner_by_id.get t) ∧
      (∀ a, a ≠ from_acc → a ≠ to_acc →
        (NFMoo.transfer st caller to_acc token_id).2.owned_count.get a =
          st.owned_count.get a) ∧
      (∀ a i, a ≠ from_acc → a ≠ to_acc →
        (NFMoo.transfer st caller to_acc token_id).2.tokens_by_owner.get
          (a, i) = st.tokens_by_owner.get (a, i)) ∧
      (∀ t, t ≠ token_id → st.owner_by_id.get t ≠ some from_acc →
        (NFMoo.transfer st caller to_acc token_id).2.owned_index.get t =
          st.owned_index.get t) := by
  have hinv := nfReachable_inv hreach
  have hp : ¬ (st.paused_flag = true) := fun h => by
    simp only [NFMoo.transfer, if_pos h] at hok
    exact Option.noConfusion hok
  rcases happr : st.is_approved_or_owner caller token_id with - | e
  case some =>
    exfalso
    simp only [NFMoo.transfer, if_neg hp, happr] at hok
    exact Option.noConfusion hok
  case none =>
  rcases hown : st.owner_by_id.get token_id with - | f
  case none =>
    exfalso
    simp only [NFMoo.transfer, if_neg hp, happr, hown] at hok
    exact Option.noConfusion hok
  case some =>
  by_cases hne_ft : f = to_acc
  case pos =>
    exfalso
    simp only [NFMoo.transfer, if_neg hp, happr, hown, if_pos hne_ft] at hok
    exact Option.noConfusion hok
  case neg =>
  obtain ⟨ri, hri_lt, hidx_t, hslot_t⟩ := hinv.1.2.2.1 token_id f hown
  have htof : ¬ (to_acc = f) := fun hh => hne_ft hh.symm
  have hcnt_to : cntOf (st.owned_count.insert f
      (cntOf st.owned_count f - 1)) to_acc = st.balance_of to_acc := by
    rw [cntOf_insert, if_neg htof]
    rfl
  refine ⟨f, rfl, ?_⟩
  by_cases hri : cntOf st.owned_count f - 1 = ri
  · have hrem := remove_token_eq_last
      { st with token_approval := st.token_approval.remove token_id }
      f token_id token_id (cntOf st.owned_count f) rfl (by omega)
      (by rw [hri]; exact hidx_t)
      (by rw [hri]; exact hslot_t)
    by_cases hfit : st.balance_of to_acc + 1 < 2 ^ 32
    case neg =>
      exfalso
      have hadd := add_token_eq_fail
        { st with
          token_approval := st.token_approval.remove token_id
          tokens_by_owner := st.tokens_by_owner.remove
            (f, cntOf st.owned_count f - 1)
          owned_index := st.owned_index.remove token_id
          owned_count := st.owned_count.insert f
            (cntOf st.owned_count f - 1)
          owner_by_id := st.owner_by_id.insert token_id to_acc }
        to_acc token_id (st.balance_of to_acc) hcnt_to hfit
      simp only [NFMoo.transfer, if_neg hp, happr, hown, if_neg hne_ft,
        NFMoo.clear_token_approval] at hok
      rw [hrem] at hok
      simp only [] at hok
      rw [hadd] at hok
      exact Option.noConfusion hok
    case pos =>
      have hadd := add_token_eq
        { st with
          token_approval := st.token_approval.remove token_id
          tokens_by_owner := st.tokens_by_owner.remove
            (f, cntOf st.owned_count f - 1)
          owned_index := st.owned_index.remove token_id
          owned_count := st.owned_count.insert f
            (cntOf st.owned_count f - 1)
          owner_by_id := st.owner_by_id.insert token_id to_acc }
        to_acc token_id (st.balance_of to_acc) hcnt_to hfit
      simp only [NFMoo.transfer, if_neg hp, happr, hown, if_neg hne_ft,
        NFMoo.clear_token_approval]
      rw [hrem]
      simp only []
      rw [hadd]
      simp only []
      refine ⟨by trivial, by trivial, by trivial, by trivial, by trivial,
        by trivial, by trivial, ?_, fun t ht => ?_, ?_,
        fun t ht => ?_, fun a ha hb => ?_, fun a i ha hb => ?_,
        fun t ht hnf => ?_⟩
      · simp
      · simp [ht]
      · simp
      · simp [ht]
      · simp [ha, hb]
      · simp [Prod.mk.injEq, ha, hb]
      · simp [ht]
  · obtain ⟨lt, hlast, hlt_own, hlt_idx⟩ :=
      hinv.1.1 f (cntOf st.owned_count f - 1) (by omega)
    have hrem := remove_token_eq_swap
      { st with token_approval := st.token_approval.remove token_id }
      f token_id ri lt (cntOf st.owned_count f) rfl (by omega)
      hidx_t hlast hri
    by_cases hfit : st.balance_of to_acc + 1 < 2 ^ 32
    case neg =>
      exfalso
      have hadd := add_token_eq_fail
        { st with
          token_approval := st.token_approval.remove token_id
          tokens_by_owner := (st.tokens_by_owner.insert (f, ri)
            lt).remove (f, cntOf st.owned_count f - 1)
          owned_index := (st.owned_index.insert lt ri).remove token_id
          owned_count := st.owned_count.insert f
            (cntOf st.owned_count f - 1)
          owner_by_id := st.owner_by_id.insert token_id to_acc }
        to_acc token_id (st.balance_of to_acc) hcnt_to hfit
      simp only [NFMoo.transfer, if_neg hp, happr, hown, if_neg hne_ft,
        NFMoo.clear_token_approval] at hok
      rw [hrem] at hok
      simp only [] at hok
      rw [hadd] at hok
      exact Option.noConfusion hok
    case pos =>
      have hadd := add_token_eq
        { st with
          token_approval := st.token_approval.remove token_id
          tokens_by_owner := (st.tokens_by_owner.insert (f, ri)
            lt).remove (f, cntOf st.owned_count f - 1)
          owned_index := (st.owned_index.insert lt ri).remove token_id
          owned_count := st.owned_count.insert f
            (cntOf st.owned_count f - 1)
          owner_by_id := st.owner_by_id.insert token_id to_acc }
        to_acc token_id (st.balance_of to_acc) hcnt_to hfit
      simp only [NFMoo.transfer, if_neg hp, happr, hown, if_neg hne_ft,
        NFMoo.clear_token_approval]
      rw [hrem]
      simp only []
      rw [hadd]
      simp only []
      refine ⟨by trivial, by trivial, by trivial, by trivial, by trivial,
        by trivial, by trivial, ?_, fun t ht => ?_, ?_,
        fun t ht => ?_, fun a ha hb => ?_, fun a i ha hb => ?_,
        fun t ht hnf => ?_⟩
      · simp
      · simp [ht]
      · simp
      · simp [ht]
      · simp [ha, hb]
      · simp [Prod.mk.injEq, ha, hb]
      · have htlt : t ≠ lt := fun hcon => hnf (by rw [hcon]; exact hlt_own)
        simp [ht, htlt]
/-- C10 witness: transferring token 1 from minter 5 to account 9 leaves
the supply unchanged, reassigns only token 1, and keeps token 0's owner. -/
theorem c10_transfer_frame_witness :
    (NFMoo.transfer nfS2 5 9 1).2.supply_cnt = nfS2.supply_cnt ∧
    (NFMoo.transfer nfS2 5 9 1).2.owner_by_id.get 1 = some 9 ∧
    (NFMoo.transfer nfS2 5 9 1).2.owner_by_id.get 0 =
      nfS2.owner_by_id.get 0 := by
  obtain ⟨f, -, hsup, -, -, -, -, -, -, -, -, hto, hfr, -, -, -⟩ :=
    c10_transfer_frame nfS2 5 9 1 nfS2_reachable (by decide)
  exact ⟨hsup, hto, hfr 0 (by decide)⟩
